import Mathlib

/-!
Verification of src/tracker.py (offline poker session tracker).

We shallowly embed the pure core of the tracker: the per-hand parser
`parse_hand`, the session builder `build_sessions`, the per-stake
aggregator `build_limits_stats` and the summary builder `build_summary`.

Modelling conventions:
* Python strings are modelled over their character lists; the regular
  expressions of tracker.py (all of a very restricted shape) are embedded as
  specialised scanners that implement Python's leftmost-match semantics.
  Character classes are modelled at their ASCII meaning.
* Python floats are modelled as exact rationals (ℚ); `round` is modelled as
  round-half-to-even (Python's rounding mode).
* `datetime` values are modelled as proleptic-Gregorian timestamps in seconds
  (the `toordinal`-based quantity Python compares and subtracts).
* `parse_hand` can raise `ValueError` (from `datetime.strptime`); the
  embedding returns `Except Unit Hand`, `.error ()` standing for the raise.
-/

/-- ASCII decimal digit, the match set of the regex class backslash-d on the
ASCII fragment. -/
def isDigitA (c : Char) : Bool := '0' ≤ c && c ≤ '9'

/-- Python regex whitespace class (ASCII fragment):
space, tab, newline, vertical tab, form feed, carriage return. -/
def isSpaceA (c : Char) : Bool :=
  c = ' ' || c = '\t' || c = '\n' || c = '\x0b' || c = '\x0c' || c = '\r'

/-- Numeric value of an ASCII digit. -/
def digitVal (c : Char) : Nat := c.toNat - '0'.toNat

/-- Value of a string of ASCII digits, most significant first. -/
def digitsVal (ds : List Char) : Nat := ds.foldl (fun acc c => 10 * acc + digitVal c) 0

/-- Case-insensitive match (as in re.IGNORECASE over ASCII) of the literal
pattern `pat` against a prefix of `cs`; returns the actually consumed
characters and the rest. -/
def ciStrip : List Char → List Char → Option (List Char × List Char)
  | [], cs => some ([], cs)
  | _ :: _, [] => none
  | p :: ps, c :: cs =>
      if c.toLower = p.toLower then
        (ciStrip ps cs).map (fun u => (c :: u.1, u.2))
      else none

/-- Two character lists are equal up to ASCII case. -/
def ciEqL (xs ys : List Char) : Prop := xs.map Char.toLower = ys.map Char.toLower

instance (xs ys : List Char) : Decidable (ciEqL xs ys) := by
  unfold ciEqL; infer_instance

/-- re.search: try the position matcher `f` at every start position of `cs`,
left to right (also at the end-of-string position), returning the first hit.
This is Python's leftmost-match search semantics. -/
def scanFirst (f : List Char → Option α) : List Char → Option α
  | [] => f []
  | c :: rest =>
      match f (c :: rest) with
      | some v => some v
      | none => scanFirst f rest

/-- Lazy gap scanner embedding a leading non-greedy dot-star: try `f` at the
current position; on failure consume one non-newline character and retry
(the regex dot does not match a newline outside DOTALL mode). -/
def gapScan (f : List Char → Option α) : List Char → Option α
  | [] => f []
  | c :: rest =>
      match f (c :: rest) with
      | some v => some v
      | none => if c = '\n' then none else gapScan f rest

/-- Longest digit prefix and the rest (the greedy digit-run of a regex). -/
def takeDigits (cs : List Char) : List Char × List Char :=
  (cs.takeWhile isDigitA, cs.dropWhile isDigitA)

/-- Optional fractional part of the numeral pattern: a dot followed by one or
more digits, greedily; empty when that fails (the group is optional). -/
def fracPart : List Char → List Char
  | '.' :: rest =>
      let fd := rest.takeWhile isDigitA
      if fd = [] then [] else '.' :: fd
  | _ => []

/-- Unsigned core of the numeral pattern: one or more digits then the optional
fraction; returns the matched characters. -/
def numCore (cs : List Char) : Option (List Char) :=
  let ds := cs.takeWhile isDigitA
  if ds = [] then none else some (ds ++ fracPart (cs.dropWhile isDigitA))

/-- The numeral group of the hero-result regex: an optional sign, one or more
digits, an optional fraction; returns the matched characters (group 2). -/
def numParse : List Char → Option (List Char)
  | [] => none
  | c :: rest =>
      if c = '+' || c = '-' then (numCore rest).map (fun n => c :: n)
      else numCore (c :: rest)

/-- Value of an unsigned numeral (digits, optional dot and digits), as
Python float() parses the matched text; exact rational model of the float. -/
def floatValU (cs : List Char) : Rat :=
  let ds := cs.takeWhile isDigitA
  let rest := cs.dropWhile isDigitA
  (digitsVal ds : Rat) +
    (match rest with
     | '.' :: fr => (digitsVal (fr.takeWhile isDigitA) : Rat) / (10 : Rat) ^ (fr.takeWhile isDigitA).length
     | _ => 0)

/-- Value of a signed numeral as Python float() parses it. -/
def floatVal : List Char → Rat
  | '+' :: rest => floatValU rest
  | '-' :: rest => - floatValU rest
  | cs => floatValU cs

/-- Tail of the hero-result pattern after won/lost: one whitespace character
then the numeral; returns the numeral's value. -/
def wsNum : List Char → Option Rat
  | [] => none
  | c :: rest => if isSpaceA c then (numParse rest).map floatVal else none

/-- The (won|lost) alternation then whitespace and numeral, at the current
position; the sign is +1 for won and -1 for lost (tracker.py line 145). -/
def heroAfter (cs : List Char) : Option Rat :=
  match ciStrip ['w', 'o', 'n'] cs with
  | some ur => wsNum ur.2
  | none =>
      match ciStrip ['l', 'o', 's', 't'] cs with
      | some ur => (wsNum ur.2).map (fun v => -v)
      | none => none

/-- The full hero pattern at the current position: the hero's name literally
(case-insensitively), a lazy non-newline gap, then won/lost, whitespace and
the numeral (tracker.py line 141). -/
def heroTailM (heroL : List Char) (cs : List Char) : Option Rat :=
  match ciStrip heroL cs with
  | some ur => gapScan heroAfter ur.2
  | none => none

/-- re.search of the hero-result pattern: the signed money result when the
pattern matches somewhere in the block. -/
def heroSearch (heroL : List Char) (cs : List Char) : Option Rat :=
  scanFirst (heroTailM heroL) cs

/-- After the NL/PL head of the stake pattern: one optional whitespace
character then one or more digits, greedily; returns the whole matched token
and the digit group. -/
def limitAfter (hd rest : List Char) : Option (List Char × List Char) :=
  match rest with
  | [] => none
  | c :: rest2 =>
      if isSpaceA c then
        let ds := rest2.takeWhile isDigitA
        if ds = [] then none else some (hd ++ c :: ds, ds)
      else
        let ds := (c :: rest2).takeWhile isDigitA
        if ds = [] then none else some (hd ++ ds, ds)

/-- The stake pattern (NL|PL) then optional whitespace and digits, at the
current position (tracker.py line 122); returns the matched token text and
the digit group. -/
def limitAt (cs : List Char) : Option (List Char × List Char) :=
  match ciStrip ['n', 'l'] cs with
  | some ur => limitAfter ur.1 ur.2
  | none =>
      match ciStrip ['p', 'l'] cs with
      | some ur => limitAfter ur.1 ur.2
      | none => none

/-- re.search of the stake pattern. -/
def limitSearch (cs : List Char) : Option (List Char × List Char) :=
  scanFirst limitAt cs

/-- The date pattern at the current position (tracker.py line 112): four
digits, dash, two digits, dash, two digits, space, two digits, colon, two
digits, colon, two digits; returns (year, month, day, hour, minute, second)
as parsed numbers. -/
def dateAt (cs : List Char) : Option (Nat × Nat × Nat × Nat × Nat × Nat) :=
  match cs with
  | y1 :: y2 :: y3 :: y4 :: '-' :: m1 :: m2 :: '-' :: d1 :: d2 :: ' ' ::
    hh1 :: hh2 :: ':' :: mm1 :: mm2 :: ':' :: ss1 :: ss2 :: _ =>
      if isDigitA y1 && isDigitA y2 && isDigitA y3 && isDigitA y4 &&
         isDigitA m1 && isDigitA m2 && isDigitA d1 && isDigitA d2 &&
         isDigitA hh1 && isDigitA hh2 && isDigitA mm1 && isDigitA mm2 &&
         isDigitA ss1 && isDigitA ss2 then
        some (1000 * digitVal y1 + 100 * digitVal y2 + 10 * digitVal y3 + digitVal y4,
              10 * digitVal m1 + digitVal m2,
              10 * digitVal d1 + digitVal d2,
              10 * digitVal hh1 + digitVal hh2,
              10 * digitVal mm1 + digitVal mm2,
              10 * digitVal ss1 + digitVal ss2)
      else none
  | _ => none

/-- The hand-id pattern (tracker.py line 158): the word Hand
(case-insensitively), any whitespace run, a hash sign, then digits. -/
def handIdAt (cs : List Char) : Option (List Char) :=
  match ciStrip ['h', 'a', 'n', 'd'] cs with
  | some ur =>
      match ur.2.dropWhile isSpaceA with
      | '#' :: r3 =>
          let ds := r3.takeWhile isDigitA
          if ds = [] then none else some ds
      | _ => none
  | none => none

/-- Gregorian leap-year rule used by Python's datetime. -/
def isLeap (y : Nat) : Bool := y % 4 = 0 && (y % 100 ≠ 0 || y % 400 = 0)

/-- Days in the given month of the given year. -/
def daysInMonth (y m : Nat) : Nat :=
  if m = 2 then (if isLeap y then 29 else 28)
  else if m = 4 || m = 6 || m = 9 || m = 11 then 30 else 31

/-- The strings of the date pattern that datetime.strptime accepts without a
ValueError: the calendar-valid ones (month 1..12, day within the month,
hour below 24, minute and second below 60, year at least 1). -/
def validDT (t : Nat × Nat × Nat × Nat × Nat × Nat) : Prop :=
  1 ≤ t.1 ∧ 1 ≤ t.2.1 ∧ t.2.1 ≤ 12 ∧ 1 ≤ t.2.2.1 ∧ t.2.2.1 ≤ daysInMonth t.1 t.2.1 ∧
    t.2.2.2.1 ≤ 23 ∧ t.2.2.2.2.1 ≤ 59 ∧ t.2.2.2.2.2 ≤ 59

instance (t : Nat × Nat × Nat × Nat × Nat × Nat) : Decidable (validDT t) := by
  unfold validDT; infer_instance

/-- Cumulative days before month m in a non-leap year. -/
def cumDays (m : Nat) : Nat :=
  [0, 31, 59, 90, 120, 151, 181, 212, 243, 273, 304, 334].getD (m - 1) 0

/-- Timestamp in seconds of a datetime value, on the proleptic Gregorian
calendar (the toordinal-based quantity Python's datetime compares and
subtracts). -/
def toSecs (t : Nat × Nat × Nat × Nat × Nat × Nat) : Int :=
  let y := t.1
  let m := t.2.1
  let days := 365 * (y - 1) + (y - 1) / 4 - (y - 1) / 100 + (y - 1) / 400 +
    cumDays m + (if 2 < m then (if isLeap y then 1 else 0) else 0) + (t.2.2.1 - 1)
  ((days * 86400 + t.2.2.2.1 * 3600 + t.2.2.2.2.1 * 60 + t.2.2.2.2.2 : Nat) : Int)

/-- The parsed-hand record (the dict built by tracker.py lines 161-169).
The hand_id field holds the digit group of the Hand-number pattern when it
matches; the code's fallback id(raw_hand) is a CPython object address and is
modelled as the absent value. -/
structure Hand where
  hand_id : Option (List Char)
  datetime : Option Int
  limit : String
  bb_size : Option Rat
  hero_result_money : Rat
  hero_result_bb : Option Rat
  raw : String
deriving DecidableEq

/-- The sort key of tracker.py line 184 and the value compared and
subtracted in build_sessions; the default is never used on hands that
passed the datetime filter. -/
def handKey (h : Hand) : Int := h.datetime.getD 0

/-- A character list uppercased into a string, as str.upper() on ASCII. -/
def upperStr (cs : List Char) : String := String.mk (cs.map Char.toUpper)

/-- Fields 2-6 of parse_hand (tracker.py lines 119-169): the stake label and
big-blind size, the hero money and big-blind results, and the hand id. -/
def parse_hand_rest (cs : List Char) (hero_name : String) (raw : String)
    (dt : Option Int) : Hand :=
  let lim := limitSearch cs
  let limit := match lim with | some td => upperStr td.1 | none => "unknown"
  let bb_size := lim.map (fun td => (digitsVal td.2 : Rat) / 100)
  let result_money := (heroSearch hero_name.toList cs).getD 0
  let result_bb :=
    match bb_size with
    | some b => if b ≠ 0 ∧ 0 < b then some (result_money / b) else none
    | none => none
  ⟨scanFirst handIdAt cs, dt, limit, bb_size, result_money, result_bb, raw⟩

/-- parse_hand (tracker.py lines 103-169). A block whose first date-shaped
substring is not a valid calendar datetime makes datetime.strptime raise
ValueError, modelled as the error value. -/
def parse_hand (raw_hand hero_name : String) : Except Unit Hand :=
  let cs := raw_hand.toList
  match scanFirst dateAt cs with
  | some t =>
      if validDT t then .ok (parse_hand_rest cs hero_name raw_hand (some (toSecs t)))
      else .error ()
  | none => .ok (parse_hand_rest cs hero_name raw_hand none)

/-- Python's round-half-to-even on an exact rational, to an integer. -/
def pyRound (x : Rat) : Int :=
  let f := x.floor
  let r := x - (f : Rat)
  if r < 1 / 2 then f
  else if 1 / 2 < r then f + 1
  else if f % 2 = 0 then f else f + 1

/-- Python's round(x, 2) on an exact rational. -/
def round2 (x : Rat) : Rat := (pyRound (x * 100) : Rat) / 100

/-- The per-session record built by tracker.py lines 233-244. -/
structure Session where
  session_id : Nat
  start_time : Int
  end_time : Int
  duration_minutes : Int
  hands_count : Nat
  limit : String
  total_result_money : Rat
  total_result_bb : Option Rat
  bb_per_100 : Option Rat
  hands : List Hand
deriving DecidableEq

/-- Placeholder hand for the head/last selectors; sessions are never empty,
so it is never actually selected. -/
def dummyHand : Hand := ⟨none, none, "unknown", none, 0, none, ""⟩

/-- The grouping loop of build_sessions (tracker.py lines 191-208), written
as structural recursion: cur is the open session, prev the time of the last
hand taken; a hand more than gap seconds after prev closes the session. -/
def chunkGo (gap : Int) (cur : List Hand) (prev : Hand) : List Hand → List (List Hand)
  | [] => [cur]
  | h :: rest =>
      if gap < handKey h - handKey prev then cur :: chunkGo gap [h] h rest
      else chunkGo gap (cur ++ [h]) h rest

/-- The whole grouping loop including the initial empty state and the final
flush of the open session. -/
def chunk (gap : Int) : List Hand → List (List Hand)
  | [] => []
  | h :: rest => chunkGo gap [h] h rest

/-- One session record from a group of hands (tracker.py lines 212-244). -/
def mkSession (idx : Nat) (sess : List Hand) : Session :=
  let start_time := handKey (sess.headD dummyHand)
  let end_time := handKey (sess.getLastD dummyHand)
  let duration : Rat := ((end_time - start_time : Int) : Rat) / 60
  let hands_count := sess.length
  let ls := (sess.map (fun h => h.limit)).dedup
  let limit := match ls with | [l] => l | _ => "mixed"
  let money_total := (sess.map (fun h => h.hero_result_money)).sum
  let bb_results := sess.filterMap (fun h => h.hero_result_bb)
  let bb_total : Option Rat := if bb_results = [] then none else some bb_results.sum
  let bb_per_100 := bb_total.map (fun t => t / (hands_count : Rat) * 100)
  ⟨idx, start_time, end_time, pyRound duration, hands_count, limit,
    round2 money_total, bb_total.map round2, bb_per_100.map round2, sess⟩

/-- enumerate(sessions, start=i) mapped through mkSession. -/
def mkSessions (i : Nat) : List (List Hand) → List Session
  | [] => []
  | c :: rest => mkSession i c :: mkSessions (i + 1) rest

/-- list.sort(key=lambda x: datetime) of tracker.py line 184: a stable sort
by the hand's time. -/
def sortHands (hs : List Hand) : List Hand :=
  hs.mergeSort (fun a b => decide (handKey a ≤ handKey b))

/-- build_sessions (tracker.py lines 176-246): drop time-less hands, sort by
time, group with the gap threshold (in minutes, times compared in seconds),
then build the session records with ids starting at 1. -/
def build_sessions (hands : List Hand) (session_gap_minutes : Nat) : List Session :=
  let hands1 := hands.filter (fun h => h.datetime.isSome)
  let hands2 := sortHands hands1
  mkSessions 1 (chunk (60 * (session_gap_minutes : Int)) hands2)

/-- A heap of Python list objects, for the aliasing model: a reference is an
index into the heap. -/
abbrev HeapL := List (List Hand)

/-- Dereference a list object. -/
def readRef (σ : HeapL) (r : Nat) : List Hand := σ.getD r []

/-- build_sessions on the heap model: the parameter is a reference to the
caller's list. Line 181's comprehension allocates a fresh object; line 184's
in-place sort writes to that fresh object only. -/
def build_sessions_ref (σ : HeapL) (r : Nat) (g : Nat) : HeapL × List Session :=
  let hands0 := readRef σ r
  let r1 := σ.length
  let σ1 := σ ++ [hands0.filter (fun h => h.datetime.isSome)]
  let σ2 := σ1.set r1 (sortHands (readRef σ1 r1))
  (σ2, mkSessions 1 (chunk (60 * (g : Int)) (readRef σ2 r1)))

/-- The per-stake accumulator and report row of build_limits_stats
(tracker.py lines 262-286). -/
structure StakeStat where
  limit : String
  sessions_count : Nat
  hands_count : Nat
  total_result_money : Rat
  total_result_bb : Rat
  bb_per_100 : Option Rat
deriving DecidableEq

/-- Fresh accumulator for a stake label (tracker.py lines 263-269). -/
def initAcc (l : String) : StakeStat := ⟨l, 0, 0, 0, 0, none⟩

/-- One session folded into a stake accumulator (tracker.py lines 271-275);
an absent per-session big-blind total contributes nothing. -/
def bumpAcc (d : StakeStat) (s : Session) : StakeStat :=
  ⟨d.limit, d.sessions_count + 1, d.hands_count + s.hands_count,
    d.total_result_money + s.total_result_money,
    d.total_result_bb + (s.total_result_bb).getD 0, d.bb_per_100⟩

/-- Insertion-ordered dict upsert: update the entry with this session's
label, or append a fresh one at the end. -/
def insertSess : List StakeStat → Session → List StakeStat
  | [], s => [bumpAcc (initAcc s.limit) s]
  | d :: ds, s => if d.limit = s.limit then bumpAcc d s :: ds else d :: insertSess ds s

/-- The accumulation loop of build_limits_stats: mixed sessions are skipped
(tracker.py lines 259-260). -/
def accStats (sessions : List Session) : List StakeStat :=
  sessions.foldl (fun st s => if s.limit = "mixed" then st else insertSess st s) []

/-- The bb/100 finishing pass of build_limits_stats (lines 278-286): defined
when hands were counted and the accumulated big-blind total is nonzero
(Python float truthiness), rounded to two decimals. -/
def finishAcc (d : StakeStat) : StakeStat :=
  let bb100 : Option Rat :=
    if 0 < d.hands_count then
      (if d.total_result_bb ≠ 0 then some (d.total_result_bb / (d.hands_count : Rat) * 100)
       else none)
    else none
  ⟨d.limit, d.sessions_count, d.hands_count, d.total_result_money, d.total_result_bb,
    bb100.map round2⟩

/-- build_limits_stats (tracker.py lines 253-288). -/
def build_limits_stats (sessions : List Session) : List StakeStat :=
  (accStats sessions).map finishAcc

/-- The summary record of tracker.py lines 295-330. -/
structure Summary where
  total_hands : Nat
  total_sessions : Nat
  total_result_money : Rat
  total_result_bb : Option Rat
  overall_bb_per_100 : Option Rat
  first_hand_time : Option Int
  last_hand_time : Option Int
deriving DecidableEq

/-- Python min() over a list, absent on the empty list. -/
def pyMin : List Int → Option Int
  | [] => none
  | t :: ts => some (ts.foldl min t)

/-- Python max() over a list, absent on the empty list. -/
def pyMax : List Int → Option Int
  | [] => none
  | t :: ts => some (ts.foldl max t)

/-- build_summary (tracker.py lines 295-330). -/
def build_summary (hands : List Hand) (sessions : List Session) : Summary :=
  if hands = [] then ⟨0, 0, 0, none, none, none, none⟩
  else
    let money_total := (hands.map (fun h => h.hero_result_money)).sum
    let bb_list := hands.filterMap (fun h => h.hero_result_bb)
    let bb_total : Option Rat := if bb_list = [] then none else some bb_list.sum
    let bb100 := bb_total.map (fun t => t / (hands.length : Rat) * 100)
    let times := hands.filterMap (fun h => h.datetime)
    ⟨hands.length, sessions.length, round2 money_total, bb_total.map round2,
      bb100.map round2, pyMin times, pyMax times⟩

/-- Declarative shape of the numeral group of the hero-result pattern:
an optional sign, one or more digits, an optional dot-and-digits fraction. -/
def NumFormat (n : List Char) : Prop :=
  ∃ sgn ds fr, n = sgn ++ ds ++ fr ∧ (sgn = [] ∨ sgn = ['+'] ∨ sgn = ['-']) ∧
    ds ≠ [] ∧ (∀ c ∈ ds, isDigitA c) ∧
    (fr = [] ∨ ∃ fd, fr = '.' :: fd ∧ fd ≠ [] ∧ (∀ c ∈ fd, isDigitA c))

/-- The hero clause as the spec describes it, with the gap restricted to
non-newline characters (what the regex dot matches): the block splits as
anything, a case-variant of the hero's name, a newline-free gap, a
case-variant of won or lost, one whitespace character, a well-formed signed
numeral, anything; the clause's value is the numeral's value, negated for
lost. -/
def HeroClauseNoNL (block hero : String) (v : Rat) : Prop :=
  ∃ pre heroV mid wl wsc num post,
    block.toList = pre ++ (heroV ++ (mid ++ (wl ++ wsc :: (num ++ post)))) ∧
    ciEqL heroV hero.toList ∧ (∀ c ∈ mid, c ≠ '\n') ∧
    ((ciEqL wl ['w', 'o', 'n'] ∧ v = floatVal num) ∨
     (ciEqL wl ['l', 'o', 's', 't'] ∧ v = - floatVal num)) ∧
    isSpaceA wsc ∧ NumFormat num

/-- The hero clause as the claim words it, with an unrestricted gap (any
characters, including newlines, between the hero's name and won/lost). -/
def HeroClauseAny (block hero : String) (v : Rat) : Prop :=
  ∃ pre heroV mid wl wsc num post,
    block.toList = pre ++ (heroV ++ (mid ++ (wl ++ wsc :: (num ++ post)))) ∧
    ciEqL heroV hero.toList ∧
    ((ciEqL wl ['w', 'o', 'n'] ∧ v = floatVal num) ∨
     (ciEqL wl ['l', 'o', 's', 't'] ∧ v = - floatVal num)) ∧
    isSpaceA wsc ∧ NumFormat num

/-- Declarative shape of a token of the stake pattern: a case-variant of NL
or PL, then optionally one whitespace character, then one or more digits. -/
def LimitTok (tok ds : List Char) : Prop :=
  ∃ hd2 wsp, tok = hd2 ++ (wsp ++ ds) ∧
    (ciEqL hd2 ['n', 'l'] ∨ ciEqL hd2 ['p', 'l']) ∧
    (wsp = [] ∨ ∃ c, wsp = [c] ∧ isSpaceA c) ∧ ds ≠ [] ∧ (∀ c ∈ ds, isDigitA c)

/-- The stake pattern matches at position i of cs with token text tok and
digit group ds, the digit group maximal (the regex engine's greedy match). -/
def LimitAtPos (cs : List Char) (i : Nat) (tok ds : List Char) : Prop :=
  ∃ rest, cs.drop i = tok ++ rest ∧ LimitTok tok ds ∧ (∀ c ∈ rest.head?, ¬ isDigitA c)

/-- Some token of the stake pattern starts at position i of cs. -/
def LimitSomewhere (cs : List Char) (i : Nat) : Prop :=
  ∃ tok ds rest, cs.drop i = tok ++ rest ∧ LimitTok tok ds

/-- Hands at most gap seconds apart (the within-a-session relation). -/
def nearGap (gap : Int) (a b : Hand) : Prop := handKey b - handKey a ≤ gap

/-- Chunks separated by more than the gap (the between-sessions relation). -/
def farApart (gap : Int) (c d : List Hand) : Prop :=
  ∀ x ∈ c.getLast?, ∀ y ∈ d.head?, gap < handKey y - handKey x

theorem ciStrip_sound {pat cs u r} (h : ciStrip pat cs = some (u, r)) :
    cs = u ++ r ∧ ciEqL u pat := by
  induction pat generalizing cs u r with
  | nil =>
      simp only [ciStrip, Option.some.injEq, Prod.mk.injEq] at h
      obtain ⟨h1, h2⟩ := h
      subst h1; subst h2; exact ⟨rfl, rfl⟩
  | cons p ps ih =>
      cases cs with
      | nil => simp [ciStrip] at h
      | cons c cs =>
          simp only [ciStrip] at h
          by_cases hc : c.toLower = p.toLower
          · rw [if_pos hc] at h
            cases hm : ciStrip ps cs with
            | none => rw [hm] at h; cases h
            | some pr =>
                obtain ⟨u2, r2⟩ := pr
                rw [hm] at h
                simp only [Option.map_some', Option.some.injEq, Prod.mk.injEq] at h
                obtain ⟨hu, hr⟩ := h
                obtain ⟨heq, hci⟩ := ih hm
                subst hr
                rw [← hu]
                refine ⟨by simp [heq], ?_⟩
                simpa [ciEqL, hc] using hci
          · rw [if_neg hc] at h; cases h

theorem ciStrip_complete {pat u r} (h : ciEqL u pat) :
    ciStrip pat (u ++ r) = some (u, r) := by
  induction pat generalizing u with
  | nil =>
      have : u = [] := by simpa [ciEqL] using h
      subst this; rfl
  | cons p ps ih =>
      cases u with
      | nil => simp [ciEqL] at h
      | cons c cs =>
          simp only [ciEqL, List.map_cons, List.cons.injEq] at h
          obtain ⟨h1, h2⟩ := h
          simp [ciStrip, h1, ih h2]

theorem ciStrip_isSome_of {pat cs} (h : ∃ u r, cs = u ++ r ∧ ciEqL u pat) :
    (ciStrip pat cs).isSome := by
  obtain ⟨u, r, hcs, hci⟩ := h
  subst hcs
  rw [ciStrip_complete hci]
  rfl

theorem scanFirst_sound {f : List Char → Option α} {cs : List Char} {v : α}
    (h : scanFirst f cs = some v) : ∃ i, f (cs.drop i) = some v := by
  induction cs with
  | nil => exact ⟨0, h⟩
  | cons c rest ih =>
      simp only [scanFirst] at h
      cases hf : f (c :: rest) with
      | some w => rw [hf] at h; exact ⟨0, by simpa [hf] using h⟩
      | none =>
          rw [hf] at h
          obtain ⟨i, hi⟩ := ih h
          exact ⟨i + 1, hi⟩

theorem scanFirst_complete {f : List Char → Option α} {cs : List Char} {i : Nat}
    (h : (f (cs.drop i)).isSome) : (scanFirst f cs).isSome := by
  induction cs generalizing i with
  | nil => simpa [scanFirst] using h
  | cons c rest ih =>
      simp only [scanFirst]
      cases hf : f (c :: rest) with
      | some w => rfl
      | none =>
          cases i with
          | zero => simp only [List.drop_zero] at h; rw [hf] at h; exact absurd h (by simp)
          | succ j => exact ih (i := j) (by simpa using h)

theorem scanFirst_none {f : List Char → Option α} {cs : List Char}
    (h : scanFirst f cs = none) : ∀ i, f (cs.drop i) = none := by
  intro i
  cases hf : f (cs.drop i) with
  | none => rfl
  | some v =>
      have := @scanFirst_complete _ f cs i (by simp [hf])
      rw [h] at this
      exact absurd this (by simp)

theorem scanFirst_min {f : List Char → Option α} {cs : List Char} {v : α}
    (h : scanFirst f cs = some v) :
    ∃ i, f (cs.drop i) = some v ∧ ∀ j < i, f (cs.drop j) = none := by
  induction cs with
  | nil => exact ⟨0, h, by omega⟩
  | cons c rest ih =>
      simp only [scanFirst] at h
      cases hf : f (c :: rest) with
      | some w =>
          rw [hf] at h
          exact ⟨0, by simpa [hf] using h, by omega⟩
      | none =>
          rw [hf] at h
          obtain ⟨i, hi, hmin⟩ := ih h
          refine ⟨i + 1, hi, ?_⟩
          intro j hj
          cases j with
          | zero => simpa using hf
          | succ k => exact hmin k (by omega)

theorem scanFirst_at {f : List Char → Option α} {cs : List Char} {i : Nat} {v : α}
    (h : f (cs.drop i) = some v) (hmin : ∀ j < i, f (cs.drop j) = none) :
    scanFirst f cs = some v := by
  induction cs generalizing i with
  | nil =>
      cases i with
      | zero => exact h
      | succ j =>
          simp only [List.drop_nil] at h
          have h0 := hmin 0 (by omega)
          simp only [List.drop_nil] at h0
          rw [h0] at h; cases h
  | cons c rest ih =>
      simp only [scanFirst]
      cases i with
      | zero => simp only [List.drop_zero] at h; rw [h]
      | succ j =>
          have h0 := hmin 0 (by omega)
          simp only [List.drop_zero] at h0
          rw [h0]
          exact ih (i := j) (by simpa using h) (fun k hk => by simpa using hmin (k + 1) (by omega))

theorem gapScan_sound {f : List Char → Option α} {cs : List Char} {v : α}
    (h : gapScan f cs = some v) :
    ∃ k, k ≤ cs.length ∧ (∀ c ∈ cs.take k, c ≠ '\n') ∧ f (cs.drop k) = some v := by
  induction cs with
  | nil => exact ⟨0, by simp, by simp, h⟩
  | cons c rest ih =>
      simp only [gapScan] at h
      cases hf : f (c :: rest) with
      | some w =>
          rw [hf] at h
          exact ⟨0, by simp, by simp, by simpa [hf] using h⟩
      | none =>
          rw [hf] at h
          by_cases hc : c = '\n'
          · rw [if_pos hc] at h; cases h
          · rw [if_neg hc] at h
            obtain ⟨k, hk, hnl, hfk⟩ := ih h
            refine ⟨k + 1, by simpa using hk, ?_, hfk⟩
            intro x hx
            simp only [List.take_succ_cons, List.mem_cons] at hx
            rcases hx with hx | hx
            · subst hx; exact hc
            · exact hnl x hx

theorem gapScan_complete {f : List Char → Option α} {cs : List Char} {k : Nat}
    (hk : k ≤ cs.length) (hnl : ∀ c ∈ cs.take k, c ≠ '\n')
    (h : (f (cs.drop k)).isSome) : (gapScan f cs).isSome := by
  induction cs generalizing k with
  | nil => simpa [gapScan] using h
  | cons c rest ih =>
      simp only [gapScan]
      cases hf : f (c :: rest) with
      | some w => rfl
      | none =>
          cases k with
          | zero => simp only [List.drop_zero] at h; rw [hf] at h; exact absurd h (by simp)
          | succ j =>
              have hc : c ≠ '\n' := hnl c (by simp)
              rw [if_neg hc]
              exact ih (k := j) (by simpa using hk)
                (fun x hx => hnl x (by simp [hx])) (by simpa using h)

theorem fracPart_not_dot {c : Char} {r : List Char} (h : c ≠ '.') :
    fracPart (c :: r) = [] := by
  unfold fracPart
  split
  · rename_i rest heq
    injection heq with h1 h2
    exact absurd h1 h
  · rfl

theorem numCore_sound {cs n} (h : numCore cs = some n) :
    ∃ rest, cs = n ++ rest ∧
      ∃ ds fr, n = ds ++ fr ∧ ds ≠ [] ∧ (∀ c ∈ ds, isDigitA c) ∧
        (fr = [] ∨ ∃ fd, fr = '.' :: fd ∧ fd ≠ [] ∧ (∀ c ∈ fd, isDigitA c)) := by
  have hsplit := List.takeWhile_append_dropWhile isDigitA cs
  have hdigA : ∀ c ∈ cs.takeWhile isDigitA, isDigitA c :=
    fun c hc => List.mem_takeWhile_imp hc
  unfold numCore at h
  by_cases hds : cs.takeWhile isDigitA = []
  · rw [if_pos hds] at h; cases h
  · rw [if_neg hds] at h
    simp only [Option.some.injEq] at h
    cases hdw : cs.dropWhile isDigitA with
    | nil =>
        rw [hdw] at h
        have hfp : fracPart [] = [] := rfl
        rw [hfp, List.append_nil] at h
        subst h
        refine ⟨[], ?_, cs.takeWhile isDigitA, [], by simp, hds, hdigA, Or.inl rfl⟩
        rw [List.append_nil]
        conv_lhs => rw [← hsplit, hdw]
        simp
    | cons c r =>
        rw [hdw] at h
        by_cases hdot : c = '.'
        · subst hdot
          by_cases hfd : r.takeWhile isDigitA = []
          · have hfp : fracPart ('.' :: r) = [] := by simp [fracPart, hfd]
            rw [hfp, List.append_nil] at h
            subst h
            refine ⟨'.' :: r, ?_, cs.takeWhile isDigitA, [], by simp, hds, hdigA, Or.inl rfl⟩
            conv_lhs => rw [← hsplit, hdw]
          · have hfp : fracPart ('.' :: r) = '.' :: r.takeWhile isDigitA := by
              simp [fracPart, hfd]
            rw [hfp] at h
            subst h
            refine ⟨r.dropWhile isDigitA, ?_,
              cs.takeWhile isDigitA, '.' :: r.takeWhile isDigitA, rfl, hds, hdigA,
              Or.inr ⟨r.takeWhile isDigitA, rfl, hfd,
                fun c hc => List.mem_takeWhile_imp hc⟩⟩
            conv_lhs => rw [← hsplit, hdw]
            simp [List.takeWhile_append_dropWhile]
        · have hfp := fracPart_not_dot (r := r) hdot
          rw [hfp, List.append_nil] at h
          subst h
          refine ⟨c :: r, ?_, cs.takeWhile isDigitA, [], by simp, hds, hdigA, Or.inl rfl⟩
          conv_lhs => rw [← hsplit, hdw]

theorem takeWhile_cons_ne_nil {c : Char} {l : List Char} (h : isDigitA c) :
    (c :: l).takeWhile isDigitA ≠ [] := by
  simp [List.takeWhile, h]

theorem numCore_isSome {ds fr rest : List Char} (hne : ds ≠ [])
    (hds : ∀ c ∈ ds, isDigitA c) : (numCore (ds ++ (fr ++ rest))).isSome := by
  cases ds with
  | nil => exact absurd rfl hne
  | cons d dt =>
      have hd : isDigitA d := hds d (by simp)
      unfold numCore
      rw [if_neg]
      · rfl
      · simpa using takeWhile_cons_ne_nil (l := dt ++ (fr ++ rest)) hd

theorem isDigitA_not_sign {d : Char} (hd : isDigitA d) :
    ¬ ((d = '+' || d = '-') = true) := by
  have h1 : d ≠ '+' := fun h => by subst h; exact absurd hd (by decide)
  have h2 : d ≠ '-' := fun h => by subst h; exact absurd hd (by decide)
  simp [h1, h2]

theorem numParse_sound {cs n} (h : numParse cs = some n) :
    ∃ rest, cs = n ++ rest ∧ NumFormat n := by
  cases cs with
  | nil => cases h
  | cons c rest0 =>
      simp only [numParse] at h
      by_cases hsgn : (c = '+' || c = '-') = true
      · rw [if_pos hsgn] at h
        cases hm : numCore rest0 with
        | none => rw [hm] at h; cases h
        | some m =>
            rw [hm] at h
            simp only [Option.map_some', Option.some.injEq] at h
            subst h
            obtain ⟨rest, hr, ds, fr, hm2, hne, hdig, hfr⟩ := numCore_sound hm
            refine ⟨rest, by simp [hr], [c], ds, fr, by simp [hm2], ?_, hne, hdig, hfr⟩
            rcases Bool.or_eq_true_iff.mp hsgn with hc | hc
            · exact Or.inr (Or.inl (by simp [decide_eq_true_iff.mp hc]))
            · exact Or.inr (Or.inr (by simp [decide_eq_true_iff.mp hc]))
      · rw [if_neg hsgn] at h
        obtain ⟨rest, hr, ds, fr, hm2, hne, hdig, hfr⟩ := numCore_sound h
        exact ⟨rest, hr, [], ds, fr, by simpa using hm2, Or.inl rfl, hne, hdig, hfr⟩

theorem numParse_isSome {n rest : List Char} (hn : NumFormat n) :
    (numParse (n ++ rest)).isSome := by
  obtain ⟨sgn, ds, fr, hmk, hsgn, hne, hdig, hfr⟩ := hn
  subst hmk
  rcases hsgn with h | h | h
  · subst h
    cases ds with
    | nil => exact absurd rfl hne
    | cons d dt =>
        have hd : isDigitA d := hdig d (by simp)
        have hshape : ([] ++ (d :: dt) ++ fr) ++ rest = d :: (dt ++ (fr ++ rest)) := by simp
        rw [hshape]
        simp only [numParse]
        rw [if_neg (isDigitA_not_sign hd)]
        have := @numCore_isSome (d :: dt) fr rest hne hdig
        simpa using this
  · subst h
    have hshape : (['+'] ++ ds ++ fr) ++ rest = '+' :: (ds ++ (fr ++ rest)) := by simp
    rw [hshape]
    simp only [numParse]
    rw [if_pos (by simp)]
    simpa using @numCore_isSome ds fr rest hne hdig
  · subst h
    have hshape : (['-'] ++ ds ++ fr) ++ rest = '-' :: (ds ++ (fr ++ rest)) := by simp
    rw [hshape]
    simp only [numParse]
    rw [if_pos (by simp)]
    simpa using @numCore_isSome ds fr rest hne hdig

theorem wsNum_sound {cs v} (h : wsNum cs = some v) :
    ∃ wsc num rest, cs = wsc :: (num ++ rest) ∧ isSpaceA wsc ∧ NumFormat num ∧
      v = floatVal num := by
  cases cs with
  | nil => cases h
  | cons c r =>
      simp only [wsNum] at h
      by_cases hsp : isSpaceA c = true
      · rw [if_pos hsp] at h
        cases hn : numParse r with
        | none => rw [hn] at h; cases h
        | some n =>
            rw [hn] at h
            simp only [Option.map_some', Option.some.injEq] at h
            obtain ⟨rest, hr, hnf⟩ := numParse_sound hn
            exact ⟨c, n, rest, by rw [hr], hsp, hnf, h.symm⟩
      · rw [if_neg hsp] at h; cases h

theorem wsNum_isSome {wsc : Char} {num rest : List Char} (hws : isSpaceA wsc)
    (hnum : NumFormat num) : (wsNum (wsc :: (num ++ rest))).isSome := by
  simp only [wsNum, if_pos hws]
  have := @numParse_isSome num rest hnum
  cases hn : numParse (num ++ rest) with
  | none => rw [hn] at this; exact absurd this (by simp)
  | some n => simp

theorem ciEqL_head {u pat : List Char} (h : ciEqL u pat) :
    u.head?.map Char.toLower = pat.head?.map Char.toLower := by
  unfold ciEqL at h
  rw [← List.head?_map, h, List.head?_map]

theorem ciStrip_won_of_lost {wl X : List Char} (h : ciEqL wl ['l', 'o', 's', 't']) :
    ciStrip ['w', 'o', 'n'] (wl ++ X) = none := by
  cases hw : ciStrip ['w', 'o', 'n'] (wl ++ X) with
  | none => rfl
  | some ur =>
      obtain ⟨u, r⟩ := ur
      obtain ⟨heq, hci⟩ := ciStrip_sound hw
      have h1 := ciEqL_head hci
      have h2 := ciEqL_head h
      cases wl with
      | nil => simp [ciEqL] at h
      | cons a as =>
          cases u with
          | nil => simp [ciEqL] at hci
          | cons b bs =>
              simp only [List.cons_append] at heq
              injection heq with hab hrest
              simp only [List.head?_cons, Option.map_some'] at h1 h2
              rw [← hab] at h1
              rw [Option.some.injEq] at h1 h2
              rw [h2] at h1
              cases h1

theorem heroAfter_sound {cs v} (h : heroAfter cs = some v) :
    ∃ wl wsc num rest, cs = wl ++ wsc :: (num ++ rest) ∧
      ((ciEqL wl ['w', 'o', 'n'] ∧ v = floatVal num) ∨
       (ciEqL wl ['l', 'o', 's', 't'] ∧ v = - floatVal num)) ∧
      isSpaceA wsc ∧ NumFormat num := by
  unfold heroAfter at h
  cases hw : ciStrip ['w', 'o', 'n'] cs with
  | some ur =>
      rw [hw] at h
      obtain ⟨heq, hci⟩ := ciStrip_sound hw
      obtain ⟨wsc, num, rest, h2, hws, hnum, hv⟩ := wsNum_sound h
      exact ⟨ur.1, wsc, num, rest, by rw [heq, h2], Or.inl ⟨hci, hv⟩, hws, hnum⟩
  | none =>
      rw [hw] at h
      dsimp only at h
      cases hl : ciStrip ['l', 'o', 's', 't'] cs with
      | none => rw [hl] at h; cases h
      | some ur =>
          rw [hl] at h
          dsimp only at h
          obtain ⟨heq, hci⟩ := ciStrip_sound hl
          cases hn : wsNum ur.2 with
          | none => rw [hn] at h; cases h
          | some w =>
              rw [hn] at h
              simp only [Option.map_some', Option.some.injEq] at h
              obtain ⟨wsc, num, rest, h2, hws, hnum, hv⟩ := wsNum_sound hn
              refine ⟨ur.1, wsc, num, rest, by rw [heq, h2], Or.inr ⟨hci, ?_⟩, hws, hnum⟩
              rw [← h, hv]

theorem heroAfter_isSome {wl : List Char} {wsc : Char} {num rest : List Char}
    (hwl : ciEqL wl ['w', 'o', 'n'] ∨ ciEqL wl ['l', 'o', 's', 't'])
    (hws : isSpaceA wsc) (hnum : NumFormat num) :
    (heroAfter (wl ++ wsc :: (num ++ rest))).isSome := by
  unfold heroAfter
  rcases hwl with hwl | hwl
  · rw [ciStrip_complete hwl]
    exact wsNum_isSome hws hnum
  · rw [ciStrip_won_of_lost hwl, ciStrip_complete hwl]
    dsimp only
    have := @wsNum_isSome wsc num rest hws hnum
    cases hn : wsNum (wsc :: (num ++ rest)) with
    | none => rw [hn] at this; exact absurd this (by simp)
    | some w => rfl

theorem heroTailM_sound {heroL cs v} (h : heroTailM heroL cs = some v) :
    ∃ heroV mid wl wsc num rest,
      cs = heroV ++ (mid ++ (wl ++ wsc :: (num ++ rest))) ∧
      ciEqL heroV heroL ∧ (∀ c ∈ mid, c ≠ '\n') ∧
      ((ciEqL wl ['w', 'o', 'n'] ∧ v = floatVal num) ∨
       (ciEqL wl ['l', 'o', 's', 't'] ∧ v = - floatVal num)) ∧
      isSpaceA wsc ∧ NumFormat num := by
  unfold heroTailM at h
  cases hs : ciStrip heroL cs with
  | none => rw [hs] at h; cases h
  | some ur =>
      rw [hs] at h
      obtain ⟨heq, hci⟩ := ciStrip_sound hs
      obtain ⟨k, hk, hnl, hafter⟩ := gapScan_sound h
      obtain ⟨wl, wsc, num, rest, hsplit, hor, hws, hnum⟩ := heroAfter_sound hafter
      refine ⟨ur.1, ur.2.take k, wl, wsc, num, rest, ?_, hci, hnl, hor, hws, hnum⟩
      rw [heq]
      conv_lhs => rw [← List.take_append_drop k ur.2]
      rw [hsplit]

theorem heroSearch_sound {heroL cs v} (h : heroSearch heroL cs = some v) :
    ∃ pre heroV mid wl wsc num post,
      cs = pre ++ (heroV ++ (mid ++ (wl ++ wsc :: (num ++ post)))) ∧
      ciEqL heroV heroL ∧ (∀ c ∈ mid, c ≠ '\n') ∧
      ((ciEqL wl ['w', 'o', 'n'] ∧ v = floatVal num) ∨
       (ciEqL wl ['l', 'o', 's', 't'] ∧ v = - floatVal num)) ∧
      isSpaceA wsc ∧ NumFormat num := by
  obtain ⟨i, hi⟩ := scanFirst_sound h
  obtain ⟨heroV, mid, wl, wsc, num, rest, hsplit, hrest⟩ := heroTailM_sound hi
  refine ⟨cs.take i, heroV, mid, wl, wsc, num, rest, ?_, hrest⟩
  conv_lhs => rw [← List.take_append_drop i cs]
  rw [hsplit]

theorem heroSearch_isSome {heroL : List Char}
    {pre heroV mid wl : List Char} {wsc : Char} {num post : List Char}
    (hhero : ciEqL heroV heroL) (hmid : ∀ c ∈ mid, c ≠ '\n')
    (hwl : ciEqL wl ['w', 'o', 'n'] ∨ ciEqL wl ['l', 'o', 's', 't'])
    (hws : isSpaceA wsc) (hnum : NumFormat num) :
    (heroSearch heroL (pre ++ (heroV ++ (mid ++ (wl ++ wsc :: (num ++ post)))))).isSome := by
  apply scanFirst_complete (i := pre.length)
  rw [List.drop_left]
  unfold heroTailM
  rw [ciStrip_complete hhero]
  apply gapScan_complete (k := mid.length)
  · simp
  · intro c hc
    rw [List.take_left] at hc
    exact hmid c hc
  · rw [List.drop_left]
    exact heroAfter_isSome hwl hws hnum

theorem isDigitA_not_space {c : Char} (h : isDigitA c) : isSpaceA c = false := by
  have h1 : c ≠ ' ' := fun hh => by subst hh; exact absurd h (by decide)
  have h2 : c ≠ '\t' := fun hh => by subst hh; exact absurd h (by decide)
  have h3 : c ≠ '\n' := fun hh => by subst hh; exact absurd h (by decide)
  have h4 : c ≠ '\x0b' := fun hh => by subst hh; exact absurd h (by decide)
  have h5 : c ≠ '\x0c' := fun hh => by subst hh; exact absurd h (by decide)
  have h6 : c ≠ '\r' := fun hh => by subst hh; exact absurd h (by decide)
  simp [isSpaceA, h1, h2, h3, h4, h5, h6]

theorem head?_dropWhile_not (p : Char → Bool) (l : List Char) :
    ∀ c ∈ (l.dropWhile p).head?, p c = false := by
  induction l with
  | nil => intro c hc; cases hc
  | cons a as ih =>
      intro c hc
      by_cases hp : p a = true
      · rw [List.dropWhile_cons_of_pos hp] at hc
        exact ih c hc
      · rw [List.dropWhile_cons_of_neg hp] at hc
        simp only [List.head?_cons, Option.mem_def, Option.some.injEq] at hc
        subst hc
        simpa using hp

theorem takeWhile_all_append {ds rem : List Char} (hds : ∀ c ∈ ds, isDigitA c)
    (hrem : ∀ c ∈ rem.head?, ¬ isDigitA c) :
    (ds ++ rem).takeWhile isDigitA = ds ∧ (ds ++ rem).dropWhile isDigitA = rem := by
  induction ds with
  | nil =>
      simp only [List.nil_append]
      cases rem with
      | nil => simp
      | cons a as =>
          have ha : ¬ isDigitA a := hrem a (by simp)
          constructor
          · rw [List.takeWhile_cons_of_neg (by simpa using ha)]
          · rw [List.dropWhile_cons_of_neg (by simpa using ha)]
  | cons d dt ih =>
      have hd : isDigitA d := hds d (by simp)
      obtain ⟨ih1, ih2⟩ := ih (fun c hc => hds c (by simp [hc]))
      constructor
      · simp only [List.cons_append]
        rw [List.takeWhile_cons_of_pos hd, ih1]
      · simp only [List.cons_append]
        rw [List.dropWhile_cons_of_pos hd, ih2]

theorem limitAfter_sound {hd2 rest tok ds} (h : limitAfter hd2 rest = some (tok, ds)) :
    ∃ wsp rem, rest = wsp ++ (ds ++ rem) ∧ tok = hd2 ++ (wsp ++ ds) ∧
      (wsp = [] ∨ ∃ c, wsp = [c] ∧ isSpaceA c) ∧ ds ≠ [] ∧ (∀ c ∈ ds, isDigitA c) ∧
      (∀ c ∈ rem.head?, ¬ isDigitA c) := by
  cases rest with
  | nil => cases h
  | cons c r2 =>
      simp only [limitAfter] at h
      by_cases hsp : isSpaceA c = true
      · rw [if_pos hsp] at h
        by_cases hds : r2.takeWhile isDigitA = []
        · rw [if_pos hds] at h; cases h
        · rw [if_neg hds] at h
          simp only [Option.some.injEq, Prod.mk.injEq] at h
          obtain ⟨htok, hdseq⟩ := h
          subst hdseq
          refine ⟨[c], r2.dropWhile isDigitA, ?_, by simpa using htok.symm,
            Or.inr ⟨c, rfl, hsp⟩, hds, fun x hx => List.mem_takeWhile_imp hx, ?_⟩
          · simp [List.takeWhile_append_dropWhile]
          · intro x hx
            have := head?_dropWhile_not isDigitA r2 x hx
            simp [this]
      · rw [if_neg hsp] at h
        by_cases hds : (c :: r2).takeWhile isDigitA = []
        · rw [if_pos hds] at h; cases h
        · rw [if_neg hds] at h
          simp only [Option.some.injEq, Prod.mk.injEq] at h
          obtain ⟨htok, hdseq⟩ := h
          subst hdseq
          refine ⟨[], (c :: r2).dropWhile isDigitA, ?_, by simpa using htok.symm,
            Or.inl rfl, hds, fun x hx => List.mem_takeWhile_imp hx, ?_⟩
          · simp [List.takeWhile_append_dropWhile]
          · intro x hx
            have := head?_dropWhile_not isDigitA (c :: r2) x hx
            simp [this]

theorem limitAfter_eq_of {hd2 wsp ds rem : List Char}
    (hwsp : wsp = [] ∨ ∃ c, wsp = [c] ∧ isSpaceA c) (hne : ds ≠ [])
    (hds : ∀ c ∈ ds, isDigitA c) (hrem : ∀ c ∈ rem.head?, ¬ isDigitA c) :
    limitAfter hd2 (wsp ++ (ds ++ rem)) = some (hd2 ++ (wsp ++ ds), ds) := by
  obtain ⟨htw, hdw⟩ := takeWhile_all_append hds hrem
  rcases hwsp with h | ⟨c, hc, hcs⟩
  · subst h
    cases ds with
    | nil => exact absurd rfl hne
    | cons d dt =>
        have hd : isDigitA d := hds d (by simp)
        simp only [List.nil_append, List.cons_append, limitAfter]
        rw [if_neg (by simp [isDigitA_not_space hd])]
        simp only [List.cons_append] at htw
        rw [List.takeWhile_cons_of_pos hd] at htw ⊢
        rw [htw]
        simp
  · subst hc
    simp only [List.cons_append, List.singleton_append, List.nil_append, limitAfter]
    rw [if_pos hcs, htw, if_neg hne]

theorem limitAfter_isSome {hd2 wsp ds rem : List Char}
    (hwsp : wsp = [] ∨ ∃ c, wsp = [c] ∧ isSpaceA c) (hne : ds ≠ [])
    (hds : ∀ c ∈ ds, isDigitA c) :
    (limitAfter hd2 (wsp ++ (ds ++ rem))).isSome := by
  cases ds with
  | nil => exact absurd rfl hne
  | cons d dt =>
      have hd : isDigitA d := hds d (by simp)
      rcases hwsp with h | ⟨c, hc, hcs⟩
      · subst h
        simp only [List.nil_append, List.cons_append, limitAfter]
        rw [if_neg (by simp [isDigitA_not_space hd])]
        rw [List.takeWhile_cons_of_pos hd]
        simp
      · subst hc
        simp only [List.cons_append, List.singleton_append, List.nil_append, limitAfter]
        rw [if_pos hcs]
        rw [List.takeWhile_cons_of_pos hd]
        simp

theorem ciStrip_ne_head {p q : Char} {ps qs : List Char} {u X : List Char}
    (h : ciEqL u (q :: qs)) (hpq : p.toLower ≠ q.toLower) :
    ciStrip (p :: ps) (u ++ X) = none := by
  cases hw : ciStrip (p :: ps) (u ++ X) with
  | none => rfl
  | some ur =>
      obtain ⟨heq, hci⟩ := ciStrip_sound hw
      have h1 := ciEqL_head hci
      have h2 := ciEqL_head h
      cases u with
      | nil => simp [ciEqL] at h
      | cons a as =>
          cases hu : ur.1 with
          | nil => rw [hu] at hci; simp [ciEqL] at hci
          | cons b bs =>
              rw [hu] at heq h1
              simp only [List.cons_append] at heq
              injection heq with hab hrest
              simp only [List.head?_cons, Option.map_some', Option.some.injEq] at h1 h2
              rw [← hab] at h1
              rw [h2] at h1
              exact absurd h1.symm hpq

theorem limitAt_sound {cs tok ds} (h : limitAt cs = some (tok, ds)) :
    ∃ rest, cs = tok ++ rest ∧ LimitTok tok ds ∧ (∀ c ∈ rest.head?, ¬ isDigitA c) := by
  unfold limitAt at h
  cases hn : ciStrip ['n', 'l'] cs with
  | some ur =>
      rw [hn] at h
      obtain ⟨heq, hci⟩ := ciStrip_sound hn
      obtain ⟨wsp, rem, hr, htok, hwsp, hne, hds, hrem⟩ := limitAfter_sound h
      refine ⟨rem, ?_, ⟨ur.1, wsp, htok, Or.inl hci, hwsp, hne, hds⟩, hrem⟩
      rw [heq, hr, htok]
      simp
  | none =>
      rw [hn] at h
      dsimp only at h
      cases hp : ciStrip ['p', 'l'] cs with
      | none => rw [hp] at h; cases h
      | some ur =>
          rw [hp] at h
          dsimp only at h
          obtain ⟨heq, hci⟩ := ciStrip_sound hp
          obtain ⟨wsp, rem, hr, htok, hwsp, hne, hds, hrem⟩ := limitAfter_sound h
          refine ⟨rem, ?_, ⟨ur.1, wsp, htok, Or.inr hci, hwsp, hne, hds⟩, hrem⟩
          rw [heq, hr, htok]
          simp

theorem limitAt_eq_of {cs tok ds rest : List Char} (hsplit : cs = tok ++ rest)
    (htok : LimitTok tok ds) (hrest : ∀ c ∈ rest.head?, ¬ isDigitA c) :
    limitAt cs = some (tok, ds) := by
  obtain ⟨hd2, wsp, htk, halt, hwsp, hne, hds⟩ := htok
  subst htk
  have hshape : (hd2 ++ (wsp ++ ds)) ++ rest = hd2 ++ (wsp ++ (ds ++ rest)) := by simp
  rw [hsplit, hshape]
  rcases halt with hci | hci
  · unfold limitAt
    rw [ciStrip_complete hci]
    exact limitAfter_eq_of hwsp hne hds hrest
  · unfold limitAt
    rw [ciStrip_ne_head hci (by decide), ciStrip_complete hci]
    exact limitAfter_eq_of hwsp hne hds hrest

theorem limitAt_isSome_of {cs : List Char}
    (h : ∃ tok ds rest, cs = tok ++ rest ∧ LimitTok tok ds) : (limitAt cs).isSome := by
  obtain ⟨tok, ds, rest, hsplit, hd2, wsp, htk, halt, hwsp, hne, hds⟩ := h
  subst htk
  have hshape : (hd2 ++ (wsp ++ ds)) ++ rest = hd2 ++ (wsp ++ (ds ++ rest)) := by simp
  rw [hsplit, hshape]
  rcases halt with hci | hci
  · unfold limitAt
    rw [ciStrip_complete hci]
    exact limitAfter_isSome hwsp hne hds
  · unfold limitAt
    rw [ciStrip_ne_head hci (by decide), ciStrip_complete hci]
    dsimp only
    exact limitAfter_isSome hwsp hne hds

theorem limitAt_none_iff {cs : List Char} :
    limitAt cs = none ↔ ¬ ∃ tok ds rest, cs = tok ++ rest ∧ LimitTok tok ds := by
  constructor
  · intro h hex
    have := limitAt_isSome_of hex
    rw [h] at this
    exact absurd this (by simp)
  · intro h
    cases hl : limitAt cs with
    | none => rfl
    | some td =>
        obtain ⟨tok, ds⟩ := td
        obtain ⟨rest, hsplit, htok, hrest⟩ := limitAt_sound hl
        exact absurd ⟨tok, ds, rest, hsplit, htok⟩ h

theorem parse_hand_ok {raw hero : String} {hand : Hand}
    (h : parse_hand raw hero = .ok hand) :
    ∃ dt, hand = parse_hand_rest raw.toList hero raw dt := by
  simp only [parse_hand] at h
  cases hs : scanFirst dateAt raw.toList with
  | some t =>
      rw [hs] at h
      dsimp only at h
      by_cases hv : validDT t
      · rw [if_pos hv] at h
        simp only [Except.ok.injEq] at h
        exact ⟨some (toSecs t), h.symm⟩
      · rw [if_neg hv] at h
        cases h
  | none =>
      rw [hs] at h
      simp only [Except.ok.injEq] at h
      exact ⟨none, h.symm⟩

theorem parse_hand_rest_money (cs : List Char) (hero raw : String) (dt : Option Int) :
    (parse_hand_rest cs hero raw dt).hero_result_money =
      (heroSearch hero.toList cs).getD 0 := rfl

theorem parse_hand_rest_limit (cs : List Char) (hero raw : String) (dt : Option Int) :
    (parse_hand_rest cs hero raw dt).limit =
      (match limitSearch cs with
       | some td => upperStr td.1
       | none => "unknown") := rfl

theorem parse_hand_rest_bb_size (cs : List Char) (hero raw : String) (dt : Option Int) :
    (parse_hand_rest cs hero raw dt).bb_size =
      (limitSearch cs).map (fun td => (digitsVal td.2 : Rat) / 100) := rfl

theorem parse_hand_rest_bb (cs : List Char) (hero raw : String) (dt : Option Int) :
    (parse_hand_rest cs hero raw dt).hero_result_bb =
      (match (limitSearch cs).map (fun td => (digitsVal td.2 : Rat) / 100) with
       | some b =>
           if b ≠ 0 ∧ 0 < b then some ((heroSearch hero.toList cs).getD 0 / b) else none
       | none => none) := rfl

/-- C1 (amended): for every block and hero for which parse_hand returns a
Hand, either the block contains a hero clause whose gap is newline-free and
heroResultMoney is the signed value of such a clause, or the block contains
no such clause and heroResultMoney is exactly 0. (The original claim allowed
the gap to span newlines; the regex dot of tracker.py line 141 does not
match a newline, see the counterexample.) -/
theorem claim_C1 (block hero : String) (hand : Hand)
    (h : parse_hand block hero = .ok hand) :
    (∃ v, HeroClauseNoNL block hero v ∧ hand.hero_result_money = v) ∨
    ((¬ ∃ v, HeroClauseNoNL block hero v) ∧ hand.hero_result_money = 0) := by
  obtain ⟨dt, hrest⟩ := parse_hand_ok h
  subst hrest
  rw [parse_hand_rest_money]
  cases hs : heroSearch hero.toList block.toList with
  | some v =>
      left
      obtain ⟨pre, heroV, mid, wl, wsc, num, post, hsplit, hrest2⟩ := heroSearch_sound hs
      exact ⟨v, ⟨pre, heroV, mid, wl, wsc, num, post, hsplit, hrest2⟩, by simp⟩
  | none =>
      right
      refine ⟨?_, by simp⟩
      rintro ⟨v, pre, heroV, mid, wl, wsc, num, post, hsplit, hhero, hmid, hwl, hws, hnum⟩
      have : (heroSearch hero.toList block.toList).isSome := by
        rw [hsplit]
        exact heroSearch_isSome hhero hmid
          (hwl.elim (fun a => Or.inl a.1) (fun a => Or.inr a.1)) hws hnum
      rw [hs] at this
      exact absurd this (by simp)

/-- C1 witness: the hand block MyHero lost -2.50 (no date, stake NL25)
parses with the won/lost clause found: the money result is the clause's
value, +2.5, because lost negates the numeral's own negative sign. -/
theorem claim_C1_witness :
    (∃ v, HeroClauseNoNL "NL25 MyHero lost -2.50" "MyHero" v ∧
      (parse_hand_rest "NL25 MyHero lost -2.50".toList "MyHero" "NL25 MyHero lost -2.50"
        none).hero_result_money = v) ∨
    ((¬ ∃ v, HeroClauseNoNL "NL25 MyHero lost -2.50" "MyHero" v) ∧
      (parse_hand_rest "NL25 MyHero lost -2.50".toList "MyHero" "NL25 MyHero lost -2.50"
        none).hero_result_money = 0) :=
  claim_C1 "NL25 MyHero lost -2.50" "MyHero"
    (parse_hand_rest "NL25 MyHero lost -2.50".toList "MyHero" "NL25 MyHero lost -2.50" none)
    rfl

/-- C1 counterexample: the claim as stated (a hero clause whose gap may span
newlines always sets the money result to its value) is false: in the block
consisting of Hero, a newline, then won 5, the clause exists with value 5,
but parse_hand leaves heroResultMoney at 0 because the regex dot does not
cross the newline. -/
theorem claim_C1_counterexample :
    ¬ (∀ block hero hand v, parse_hand block hero = .ok hand →
        HeroClauseAny block hero v → hand.hero_result_money = v) := by
  intro hcl
  have hok : parse_hand "Hero\nwon 5" "Hero" =
      .ok (parse_hand_rest "Hero\nwon 5".toList "Hero" "Hero\nwon 5" none) := rfl
  have hclause : HeroClauseAny "Hero\nwon 5" "Hero" 5 :=
    ⟨[], "Hero".toList, ['\n'], ['w', 'o', 'n'], ' ', ['5'], [], by decide, by decide,
      Or.inl ⟨by decide, by show (5 : Rat) = ((5 : Nat) : Rat) + 0; norm_num⟩, by decide,
      ⟨[], ['5'], [], by decide, Or.inl rfl, by decide, by decide, Or.inl rfl⟩⟩
  have := hcl "Hero\nwon 5" "Hero"
    (parse_hand_rest "Hero\nwon 5".toList "Hero" "Hero\nwon 5" none) 5 hok hclause
  rw [parse_hand_rest_money] at this
  have hz : heroSearch "Hero".toList "Hero\nwon 5".toList = none := by decide
  rw [hz] at this
  simp only [Option.getD_none] at this
  exact absurd this (by norm_num)

/-- C2 (amended): parse_hand returns a Hand exactly when the first
date-shaped substring of the block (if any) is a valid calendar datetime;
otherwise datetime.strptime raises ValueError. Every other extraction
failure degrades to a default or absent field, never an error. -/
theorem claim_C2 (raw hero : String) :
    (∃ hand, parse_hand raw hero = .ok hand) ↔
      (∀ t, scanFirst dateAt raw.toList = some t → validDT t) := by
  constructor
  · rintro ⟨hand, hok⟩ t hs
    simp only [parse_hand] at hok
    rw [hs] at hok
    dsimp only at hok
    by_cases hv : validDT t
    · exact hv
    · rw [if_neg hv] at hok
      cases hok
  · intro hv
    simp only [parse_hand]
    cases hs : scanFirst dateAt raw.toList with
    | some t =>
        dsimp only
        rw [if_pos (hv t hs)]
        exact ⟨_, rfl⟩
    | none => exact ⟨_, rfl⟩

/-- C2 counterexample: parse_hand does raise: the block 2021-02-30 10:00:00
matches the date regex, but February 30 makes datetime.strptime raise
ValueError, so no Hand is returned (modelled as the error value). -/
theorem claim_C2_counterexample :
    parse_hand "2021-02-30 10:00:00" "Hero" = .error () := rfl

/-- C8: for every block and hero for which parse_hand returns a Hand, the
stake label is the uppercased matched text of the leftmost stake token (a
case-variant of NL or PL, optionally one whitespace, then a maximal run of
one or more digits), preserving the matched text's shape; when no position
of the block starts a stake token, the label is the sentinel unknown. -/
theorem claim_C8 (block hero : String) (hand : Hand)
    (h : parse_hand block hero = .ok hand) :
    (∃ i tok ds, LimitAtPos block.toList i tok ds ∧
      (∀ j, j < i → ¬ LimitSomewhere block.toList j) ∧ hand.limit = upperStr tok) ∨
    ((∀ i, ¬ LimitSomewhere block.toList i) ∧ hand.limit = "unknown") := by
  obtain ⟨dt, hrest⟩ := parse_hand_ok h
  subst hrest
  rw [parse_hand_rest_limit]
  cases hs : limitSearch block.toList with
  | some td =>
      left
      obtain ⟨tok, ds⟩ := td
      obtain ⟨i, hi, hmin⟩ := scanFirst_min hs
      obtain ⟨rest, hsplit, htok, hrest2⟩ := limitAt_sound hi
      refine ⟨i, tok, ds, ⟨rest, hsplit, htok, hrest2⟩, ?_, rfl⟩
      intro j hj hsw
      obtain ⟨tok2, ds2, rest2, hsp2, htok2⟩ := hsw
      have := limitAt_isSome_of ⟨tok2, ds2, rest2, hsp2, htok2⟩
      rw [hmin j hj] at this
      exact absurd this (by simp)
  | none =>
      right
      refine ⟨?_, rfl⟩
      intro i hsw
      obtain ⟨tok2, ds2, rest2, hsp2, htok2⟩ := hsw
      have := limitAt_isSome_of ⟨tok2, ds2, rest2, hsp2, htok2⟩
      rw [scanFirst_none hs i] at this
      exact absurd this (by simp)

/-- C8 witness: on the block nl 25, the leftmost stake token is nl 25
itself and the stake label is its uppercasing NL 25, preserving the
matched shape. -/
theorem claim_C8_witness :
    (∃ i tok ds, LimitAtPos "nl 25".toList i tok ds ∧
      (∀ j, j < i → ¬ LimitSomewhere "nl 25".toList j) ∧
      (parse_hand_rest "nl 25".toList "MyHero" "nl 25" none).limit = upperStr tok) ∨
    ((∀ i, ¬ LimitSomewhere "nl 25".toList i) ∧
      (parse_hand_rest "nl 25".toList "MyHero" "nl 25" none).limit = "unknown") :=
  claim_C8 "nl 25" "MyHero" (parse_hand_rest "nl 25".toList "MyHero" "nl 25" none) rfl

/-- C6: for every block whose leftmost stake token has digit group ds,
parse_hand sets bigBlindSize to exactly ds/100; heroResultBigBlinds is
heroResultMoney / bigBlindSize exactly when that size is positive, and is
absent when the digits are all zero (as for NL0). -/
theorem claim_C6 (block hero : String) (hand : Hand) (i : Nat) (tok ds : List Char)
    (h : parse_hand block hero = .ok hand)
    (hpos : LimitAtPos block.toList i tok ds)
    (hmin : ∀ j, j < i → ¬ LimitSomewhere block.toList j) :
    hand.bb_size = some ((digitsVal ds : Rat) / 100) ∧
    (0 < digitsVal ds →
      hand.hero_result_bb = some (hand.hero_result_money / ((digitsVal ds : Rat) / 100))) ∧
    (digitsVal ds = 0 → hand.hero_result_bb = none) := by
  obtain ⟨dt, hrest⟩ := parse_hand_ok h
  subst hrest
  obtain ⟨rest, hsplit, htok, hrest2⟩ := hpos
  have hsearch : limitSearch block.toList = some (tok, ds) := by
    apply scanFirst_at (i := i)
    · exact limitAt_eq_of hsplit htok hrest2
    · intro j hj
      cases hl : limitAt (block.toList.drop j) with
      | none => rfl
      | some td =>
          obtain ⟨tok2, ds2⟩ := td
          obtain ⟨rest2, hsp2, htok2, _⟩ := limitAt_sound hl
          exact absurd ⟨tok2, ds2, rest2, hsp2, htok2⟩ (hmin j hj)
  refine ⟨?_, ?_, ?_⟩
  · rw [parse_hand_rest_bb_size, hsearch]
    rfl
  · intro hd
    have hb : (0 : Rat) < (digitsVal ds : Rat) / 100 := by
      have : (0 : Rat) < (digitsVal ds : Rat) := by exact_mod_cast hd
      positivity
    rw [parse_hand_rest_bb, hsearch, parse_hand_rest_money]
    dsimp only [Option.map_some']
    rw [if_pos ⟨ne_of_gt hb, hb⟩]
  · intro hd
    rw [parse_hand_rest_bb, hsearch]
    dsimp only [Option.map_some']
    rw [if_neg]
    rintro ⟨hne, hpos2⟩
    rw [hd] at hpos2
    norm_num at hpos2

/-- C6 witness: on the block NL25, the big-blind size is 25/100 = 0.25 and
the big-blind result is the money result divided by it. -/
theorem claim_C6_witness :
    (parse_hand_rest "NL25".toList "MyHero" "NL25" none).bb_size =
      some ((digitsVal ['2', '5'] : Rat) / 100) ∧
    (0 < digitsVal ['2', '5'] →
      (parse_hand_rest "NL25".toList "MyHero" "NL25" none).hero_result_bb =
        some ((parse_hand_rest "NL25".toList "MyHero" "NL25" none).hero_result_money /
          ((digitsVal ['2', '5'] : Rat) / 100))) ∧
    (digitsVal ['2', '5'] = 0 →
      (parse_hand_rest "NL25".toList "MyHero" "NL25" none).hero_result_bb = none) :=
  claim_C6 "NL25" "MyHero" (parse_hand_rest "NL25".toList "MyHero" "NL25" none)
    0 ['N', 'L', '2', '5'] ['2', '5'] rfl
    ⟨[], by decide,
      ⟨['N', 'L'], [], by decide, Or.inl (by decide), Or.inl rfl, by decide, by decide⟩,
      by simp⟩
    (fun j hj => absurd hj (by omega))

theorem chunkGo_join (gap : Int) :
    ∀ (l : List Hand) (cur : List Hand) (prev : Hand),
      (chunkGo gap cur prev l).join = cur ++ l := by
  intro l
  induction l with
  | nil => intro cur prev; simp [chunkGo]
  | cons h rest ih =>
      intro cur prev
      simp only [chunkGo]
      by_cases hg : gap < handKey h - handKey prev
      · rw [if_pos hg]
        simp only [List.join_cons, ih]
        simp
      · rw [if_neg hg, ih]
        simp

theorem chunkGo_shape (gap : Int) :
    ∀ (l : List Hand) (cur : List Hand) (prev : Hand),
      ∃ t cs2, chunkGo gap cur prev l = (cur ++ t) :: cs2 := by
  intro l
  induction l with
  | nil => intro cur prev; exact ⟨[], [], by simp [chunkGo]⟩
  | cons h rest ih =>
      intro cur prev
      simp only [chunkGo]
      by_cases hg : gap < handKey h - handKey prev
      · rw [if_pos hg]
        exact ⟨[], chunkGo gap [h] h rest, by simp⟩
      · rw [if_neg hg]
        obtain ⟨t, cs2, ht⟩ := ih (cur ++ [h]) h
        exact ⟨[h] ++ t, cs2, by rw [ht]; simp⟩

theorem chunkGo_ne_nil (gap : Int) :
    ∀ (l : List Hand) (cur : List Hand) (prev : Hand), cur ≠ [] →
      ∀ c ∈ chunkGo gap cur prev l, c ≠ [] := by
  intro l
  induction l with
  | nil =>
      intro cur prev hcur c hc
      simp only [chunkGo, List.mem_singleton] at hc
      subst hc; exact hcur
  | cons h rest ih =>
      intro cur prev hcur c hc
      simp only [chunkGo] at hc
      by_cases hg : gap < handKey h - handKey prev
      · rw [if_pos hg] at hc
        rcases List.mem_cons.mp hc with hc | hc
        · subst hc; exact hcur
        · exact ih [h] h (by simp) c hc
      · rw [if_neg hg] at hc
        exact ih (cur ++ [h]) h (by simp) c hc

theorem chunkGo_chain_near (gap : Int) :
    ∀ (l : List Hand) (cur : List Hand) (prev : Hand),
      cur.getLast? = some prev → List.Chain' (nearGap gap) cur →
      ∀ c ∈ chunkGo gap cur prev l, List.Chain' (nearGap gap) c := by
  intro l
  induction l with
  | nil =>
      intro cur prev hlast hch c hc
      simp only [chunkGo, List.mem_singleton] at hc
      subst hc; exact hch
  | cons h rest ih =>
      intro cur prev hlast hch c hc
      simp only [chunkGo] at hc
      by_cases hg : gap < handKey h - handKey prev
      · rw [if_pos hg] at hc
        rcases List.mem_cons.mp hc with hc | hc
        · subst hc; exact hch
        · exact ih [h] h rfl (by simp) c hc
      · rw [if_neg hg] at hc
        refine ih (cur ++ [h]) h (List.getLast?_concat cur) ?_ c hc
        rw [List.chain'_append]
        refine ⟨hch, by simp, ?_⟩
        intro x hx y hy
        rw [hlast] at hx
        simp only [Option.mem_def, Option.some.injEq] at hx
        simp only [List.head?_cons, Option.mem_def, Option.some.injEq] at hy
        subst hx; subst hy
        exact le_of_not_lt hg

theorem chunkGo_chain_far (gap : Int) :
    ∀ (l : List Hand) (cur : List Hand) (prev : Hand),
      cur.getLast? = some prev → List.Chain' (farApart gap) (chunkGo gap cur prev l) := by
  intro l
  induction l with
  | nil => intro cur prev hlast; simp [chunkGo]
  | cons h rest ih =>
      intro cur prev hlast
      simp only [chunkGo]
      by_cases hg : gap < handKey h - handKey prev
      · rw [if_pos hg]
        rw [List.chain'_cons']
        refine ⟨?_, ih [h] h rfl⟩
        intro y hy
        obtain ⟨t, cs2, ht⟩ := chunkGo_shape gap rest [h] h
        rw [ht] at hy
        simp only [List.head?_cons, Option.mem_def, Option.some.injEq] at hy
        subst hy
        intro x hx z hz
        rw [hlast] at hx
        simp only [Option.mem_def, Option.some.injEq] at hx
        simp only [List.cons_append, List.head?_cons, Option.mem_def, Option.some.injEq] at hz
        subst hx; subst hz
        exact hg
      · rw [if_neg hg]
        exact ih (cur ++ [h]) h (List.getLast?_concat cur)

theorem chunk_join (gap : Int) (l : List Hand) : (chunk gap l).join = l := by
  cases l with
  | nil => rfl
  | cons h rest => exact chunkGo_join gap rest [h] h

theorem chunk_ne_nil (gap : Int) (l : List Hand) : ∀ c ∈ chunk gap l, c ≠ [] := by
  cases l with
  | nil => intro c hc; cases hc
  | cons h rest => exact chunkGo_ne_nil gap rest [h] h (by simp)

theorem chunk_chain_near (gap : Int) (l : List Hand) :
    ∀ c ∈ chunk gap l, List.Chain' (nearGap gap) c := by
  cases l with
  | nil => intro c hc; cases hc
  | cons h rest => exact chunkGo_chain_near gap rest [h] h rfl (by simp)

theorem chunk_chain_far (gap : Int) (l : List Hand) :
    List.Chain' (farApart gap) (chunk gap l) := by
  cases l with
  | nil => simp [chunk]
  | cons h rest => exact chunkGo_chain_far gap rest [h] h rfl

theorem chain_of_join {β : Type} {R : β → β → Prop} :
    ∀ (cs : List (List β)), List.Chain' R cs.join → ∀ c ∈ cs, List.Chain' R c := by
  intro cs
  induction cs with
  | nil => intro _ c hc; cases hc
  | cons c2 rest ih =>
      intro hch c hc
      simp only [List.join_cons] at hch
      have := List.chain'_append.mp hch
      rcases List.mem_cons.mp hc with hc | hc
      · subst hc; exact this.1
      · exact ih this.2.1 c hc

theorem chain_strengthen {β : Type} {R S : β → β → Prop} {P : β → Prop} :
    ∀ {l : List β}, (∀ a b, P a → P b → R a b → S a b) → (∀ a ∈ l, P a) →
      List.Chain' R l → List.Chain' S l := by
  intro l
  induction l with
  | nil => intro _ _ _; simp
  | cons a rest ih =>
      intro hRS hP hch
      rw [List.chain'_cons'] at hch ⊢
      refine ⟨?_, ih hRS (fun x hx => hP x (by simp [hx])) hch.2⟩
      intro y hy
      have hyl : y ∈ rest := List.mem_of_mem_head? hy
      exact hRS a y (hP a (by simp)) (hP y (by simp [hyl])) (hch.1 y hy)

theorem mkSessions_hands :
    ∀ (cs : List (List Hand)) (i : Nat), (mkSessions i cs).map (fun s => s.hands) = cs := by
  intro cs
  induction cs with
  | nil => intro i; rfl
  | cons c rest ih => intro i; simp only [mkSessions, List.map_cons, ih]; rfl

theorem mkSessions_length :
    ∀ (cs : List (List Hand)) (i : Nat), (mkSessions i cs).length = cs.length := by
  intro cs
  induction cs with
  | nil => intro i; rfl
  | cons c rest ih => intro i; simp only [mkSessions, List.length_cons, ih]

theorem mkSessions_ids :
    ∀ (cs : List (List Hand)) (i : Nat),
      (mkSessions i cs).map (fun s => s.session_id) = List.range' i cs.length := by
  intro cs
  induction cs with
  | nil => intro i; rfl
  | cons c rest ih =>
      intro i
      simp only [mkSessions, List.map_cons, List.length_cons, List.range'_succ, ih]
      rfl

theorem mkSessions_mem :
    ∀ (cs : List (List Hand)) (i : Nat) (s : Session),
      s ∈ mkSessions i cs → ∃ j c, c ∈ cs ∧ s = mkSession j c := by
  intro cs
  induction cs with
  | nil => intro i s hs; cases hs
  | cons c rest ih =>
      intro i s hs
      rcases List.mem_cons.mp hs with hs | hs
      · exact ⟨i, c, by simp, hs⟩
      · obtain ⟨j, c2, hc2, hsc⟩ := ih (i + 1) s hs
        exact ⟨j, c2, by simp [hc2], hsc⟩

theorem mkSessions_chain {S : Session → Session → Prop} {R : List Hand → List Hand → Prop}
    (hRS : ∀ i j c d, R c d → S (mkSession i c) (mkSession j d)) :
    ∀ (cs : List (List Hand)) (i : Nat), List.Chain' R cs →
      List.Chain' S (mkSessions i cs) := by
  intro cs
  induction cs with
  | nil => intro i _; simp [mkSessions]
  | cons c rest ih =>
      intro i hch
      rw [List.chain'_cons'] at hch
      simp only [mkSessions]
      rw [List.chain'_cons']
      refine ⟨?_, ih (i + 1) hch.2⟩
      intro y hy
      cases rest with
      | nil => cases hy
      | cons d ds =>
          simp only [mkSessions, List.head?_cons, Option.mem_def, Option.some.injEq] at hy
          subst hy
          exact hRS i (i + 1) c d (hch.1 d (by simp))

theorem sortHands_sorted (hs : List Hand) :
    List.Chain' (fun a b => handKey a ≤ handKey b) (sortHands hs) := by
  have hp := @List.sorted_mergeSort Hand (fun a b => decide (handKey a ≤ handKey b))
    (fun a b c hab hbc => by
      simp only [decide_eq_true_eq] at *
      omega)
    (fun a b => by
      simp only [Bool.or_eq_true, decide_eq_true_eq]
      omega) hs
  exact (hp.imp (fun h => by simpa using h)).chain'

theorem sortHands_perm (hs : List Hand) : (sortHands hs).Perm hs :=
  List.mergeSort_perm hs _

theorem build_sessions_def (hands : List Hand) (G : Nat) :
    build_sessions hands G =
      mkSessions 1 (chunk (60 * (G : Int))
        (sortHands (hands.filter (fun h => h.datetime.isSome)))) := rfl

/-- C3: the session builder groups the time-sorted hands exactly by the
strict gap comparison: the sessions' hand lists concatenate back to the
whole sorted list (so the last open session is always emitted, also for a
single hand), adjacent hands inside one session are at most 60G seconds
apart (so hands exactly G minutes apart, or with identical timestamps at
G = 0, share a session), and the boundary between consecutive sessions is
strictly more than 60G seconds. -/
theorem claim_C3 (hands : List Hand) (G : Nat) :
    ((build_sessions hands G).map (fun s => s.hands)).join =
      sortHands (hands.filter (fun h => h.datetime.isSome)) ∧
    (∀ s ∈ build_sessions hands G, s.hands ≠ [] ∧
      List.Chain' (fun a b => handKey b - handKey a ≤ 60 * (G : Int)) s.hands) ∧
    List.Chain' (fun s t => ∀ x ∈ s.hands.getLast?, ∀ y ∈ t.hands.head?,
      60 * (G : Int) < handKey y - handKey x) (build_sessions hands G) := by
  rw [build_sessions_def]
  refine ⟨?_, ?_, ?_⟩
  · rw [mkSessions_hands]
    exact chunk_join _ _
  · intro s hs
    obtain ⟨j, c, hc, hsc⟩ := mkSessions_mem _ 1 s hs
    subst hsc
    exact ⟨chunk_ne_nil _ _ c hc, chunk_chain_near _ _ c hc⟩
  · refine mkSessions_chain (R := farApart (60 * (G : Int))) ?_ _ 1 ?_
    · intro i j c d hcd
      exact hcd
    · exact chunk_chain_far _ _

theorem headD_of_head? {c : List Hand} {x : Hand} (h : c.head? = some x) :
    c.headD dummyHand = x := by
  cases c with
  | nil => cases h
  | cons a l =>
      simp only [List.head?_cons, Option.some.injEq] at h
      simp [h]

theorem getLastD_of_getLast? {c : List Hand} {x : Hand} (h : c.getLast? = some x) :
    c.getLastD dummyHand = x := by
  rw [List.getLastD_eq_getLast?, h]
  rfl

/-- C9: structural invariants of the session builder: 1-based sequential
session ids in order, non-empty sessions whose hands are sorted ascending by
time with startTime/endTime the first/last hand's time, the sessions'
hand lists contiguous (they concatenate to the sorted input), and the
sessions pairwise non-overlapping in chronological order. -/
theorem claim_C9 (hands : List Hand) (G : Nat) :
    (build_sessions hands G).map (fun s => s.session_id) =
      List.range' 1 (build_sessions hands G).length ∧
    (∀ s ∈ build_sessions hands G, s.hands ≠ [] ∧
      List.Chain' (fun a b : Hand => handKey a ≤ handKey b) s.hands ∧
      (∀ x ∈ s.hands.head?, s.start_time = handKey x) ∧
      (∀ x ∈ s.hands.getLast?, s.end_time = handKey x)) ∧
    ((build_sessions hands G).map (fun s => s.hands)).join =
      sortHands (hands.filter (fun h => h.datetime.isSome)) ∧
    List.Chain' (fun s t => s.end_time < t.start_time) (build_sessions hands G) := by
  rw [build_sessions_def]
  refine ⟨?_, ?_, ?_, ?_⟩
  · rw [mkSessions_ids, mkSessions_length]
  · intro s hs
    obtain ⟨j, c, hc, hsc⟩ := mkSessions_mem _ 1 s hs
    subst hsc
    refine ⟨chunk_ne_nil _ _ c hc, ?_, ?_, ?_⟩
    · refine chain_of_join _ ?_ c hc
      rw [chunk_join]
      exact sortHands_sorted _
    · intro x hx
      have hx2 : c.head? = some x := hx
      show handKey (c.headD dummyHand) = handKey x
      rw [headD_of_head? hx2]
    · intro x hx
      have hx2 : c.getLast? = some x := hx
      show handKey (c.getLastD dummyHand) = handKey x
      rw [getLastD_of_getLast? hx2]
  · rw [mkSessions_hands]
    exact chunk_join _ _
  · have hgap : (0 : Int) ≤ 60 * (G : Int) := by positivity
    have hfar : List.Chain'
        (fun c d : List Hand =>
          handKey (c.getLastD dummyHand) < handKey (d.headD dummyHand))
        (chunk (60 * (G : Int)) (sortHands (hands.filter (fun h => h.datetime.isSome)))) := by
      refine chain_strengthen (R := farApart (60 * (G : Int))) (P := fun c => c ≠ [])
        ?_ (chunk_ne_nil _ _) (chunk_chain_far _ _)
      intro c d hc hd hfar2
      cases hcl : c.getLast? with
      | none => exact absurd (List.getLast?_eq_none_iff.mp hcl) hc
      | some x =>
          cases hdh : d.head? with
          | none => exact absurd (List.head?_eq_none_iff.mp hdh) hd
          | some y =>
              have := hfar2 x (by simp [hcl]) y (by simp [hdh])
              rw [getLastD_of_getLast? hcl, headD_of_head? hdh]
              omega
    refine mkSessions_chain
      (R := fun c d : List Hand =>
        handKey (c.getLastD dummyHand) < handKey (d.headD dummyHand)) ?_ _ 1 hfar
    intro i j c d hcd
    exact hcd

theorem getD_append_lt {α : Type} (d : α) :
    ∀ (l t : List α) (r : Nat), r < l.length → (l ++ t).getD r d = l.getD r d := by
  intro l
  induction l with
  | nil => intro t r hr; simp at hr
  | cons a l2 ih =>
      intro t r hr
      cases r with
      | zero => rfl
      | succ r2 =>
          simp only [List.cons_append, List.getD_cons_succ]
          exact ih t r2 (by simpa using hr)

theorem getD_append_self {α : Type} (d : α) :
    ∀ (l : List α) (x : α), (l ++ [x]).getD l.length d = x := by
  intro l
  induction l with
  | nil => intro x; rfl
  | cons a l2 ih =>
      intro x
      simp only [List.cons_append, List.length_cons, List.getD_cons_succ]
      exact ih x

theorem set_append_self {α : Type} :
    ∀ (l : List α) (x y : α), (l ++ [x]).set l.length y = l ++ [y] := by
  intro l
  induction l with
  | nil => intro x y; rfl
  | cons a l2 ih =>
      intro x y
      simp only [List.cons_append, List.length_cons, List.set_cons_succ]
      rw [ih]

theorem readRef_append_self (l : HeapL) (x : List Hand) :
    readRef (l ++ [x]) l.length = x := getD_append_self [] l x

/-- C10: build_sessions never writes to the caller's list object: in the
heap model, the comprehension of line 181 allocates a fresh object and the
in-place sort of line 184 writes only to it, so the caller's reference reads
the same list after the call, the sessions computed equal the pure
build_sessions of that list, and build_summary run afterwards on the same
reference sees the hands unchanged in their original order. -/
theorem claim_C10 (σ : HeapL) (r g : Nat) (h : r < σ.length) :
    readRef (build_sessions_ref σ r g).1 r = readRef σ r ∧
    (build_sessions_ref σ r g).2 = build_sessions (readRef σ r) g ∧
    (∀ S, build_summary (readRef (build_sessions_ref σ r g).1 r) S =
      build_summary (readRef σ r) S) := by
  have hread : readRef (σ ++ [(readRef σ r).filter (fun h => h.datetime.isSome)]) σ.length =
      (readRef σ r).filter (fun h => h.datetime.isSome) :=
    getD_append_self [] σ _
  have hset : (σ ++ [(readRef σ r).filter (fun h => h.datetime.isSome)]).set σ.length
      (sortHands (readRef (σ ++ [(readRef σ r).filter (fun h => h.datetime.isSome)]) σ.length)) =
      σ ++ [sortHands ((readRef σ r).filter (fun h => h.datetime.isSome))] := by
    rw [hread]
    exact set_append_self σ _ _
  have hσ2 : (build_sessions_ref σ r g).1 =
      σ ++ [sortHands ((readRef σ r).filter (fun h => h.datetime.isSome))] := by
    simp only [build_sessions_ref]
    rw [hset]
  have hframe : readRef (build_sessions_ref σ r g).1 r = readRef σ r := by
    rw [hσ2]
    exact getD_append_lt [] σ _ r h
  refine ⟨hframe, ?_, fun S => by rw [hframe]⟩
  show mkSessions 1 (chunk (60 * (g : Int))
      (readRef ((σ ++ [(readRef σ r).filter (fun h => h.datetime.isSome)]).set σ.length
        (sortHands (readRef (σ ++ [(readRef σ r).filter (fun h => h.datetime.isSome)])
          σ.length))) σ.length)) = build_sessions (readRef σ r) g
  rw [hset, readRef_append_self]
  rfl

/-- C10 witness: on a one-object heap holding a single time-less hand, the
call leaves the caller's object unchanged and computes the same sessions as
the pure function. -/
theorem claim_C10_witness :
    readRef (build_sessions_ref [[dummyHand]] 0 30).1 0 = readRef [[dummyHand]] 0 ∧
    (build_sessions_ref [[dummyHand]] 0 30).2 =
      build_sessions (readRef [[dummyHand]] 0) 30 ∧
    (∀ S, build_summary (readRef (build_sessions_ref [[dummyHand]] 0 30).1 0) S =
      build_summary (readRef [[dummyHand]] 0) S) :=
  claim_C10 [[dummyHand]] 0 30 (by simp)

theorem bumpAcc_limit (d : StakeStat) (s : Session) : (bumpAcc d s).limit = d.limit := rfl

theorem finishAcc_limit (d : StakeStat) : (finishAcc d).limit = d.limit := rfl

theorem insertSess_labels (st : List StakeStat) (s : Session) :
    (insertSess st s).map (fun d => d.limit) =
      if s.limit ∈ st.map (fun d => d.limit) then st.map (fun d => d.limit)
      else st.map (fun d => d.limit) ++ [s.limit] := by
  induction st with
  | nil => simp [insertSess, bumpAcc_limit, initAcc]
  | cons d ds ih =>
      simp only [insertSess]
      by_cases hd : d.limit = s.limit
      · rw [if_pos hd]
        simp only [List.map_cons, bumpAcc_limit]
        rw [if_pos (by simp [hd])]
      · rw [if_neg hd]
        simp only [List.map_cons, ih]
        by_cases hmem : s.limit ∈ ds.map (fun d => d.limit)
        · rw [if_pos hmem, if_pos (by simp [hmem])]
        · rw [if_neg hmem, if_neg]
          · simp
          · simp only [List.mem_cons]
            rintro (hc | hc)
            · exact hd hc.symm
            · exact hmem hc

theorem mem_insertSess_labels {st : List StakeStat} {s : Session} {l : String} :
    l ∈ (insertSess st s).map (fun d => d.limit) ↔
      l ∈ st.map (fun d => d.limit) ∨ l = s.limit := by
  rw [insertSess_labels]
  by_cases hmem : s.limit ∈ st.map (fun d => d.limit)
  · rw [if_pos hmem]
    constructor
    · exact Or.inl
    · rintro (hc | hc)
      · exact hc
      · rw [hc]; exact hmem
  · rw [if_neg hmem]
    simp

theorem accStats_go_mem :
    ∀ (ss : List Session) (st : List StakeStat) (l : String),
      (l ∈ (ss.foldl (fun st s => if s.limit = "mixed" then st else insertSess st s)
          st).map (fun d => d.limit) ↔
        l ∈ st.map (fun d => d.limit) ∨ (l ≠ "mixed" ∧ l ∈ ss.map (fun s => s.limit))) := by
  intro ss
  induction ss with
  | nil => intro st l; simp
  | cons s rest ih =>
      intro st l
      simp only [List.foldl_cons]
      by_cases hm : s.limit = "mixed"
      · rw [if_pos hm, ih]
        constructor
        · rintro (hc | ⟨hne, hc⟩)
          · exact Or.inl hc
          · exact Or.inr ⟨hne, by simp [hc]⟩
        · rintro (hc | ⟨hne, hc⟩)
          · exact Or.inl hc
          · simp only [List.map_cons, List.mem_cons] at hc
            rcases hc with hc | hc
            · rw [hc, hm] at hne; exact absurd rfl hne
            · exact Or.inr ⟨hne, hc⟩
      · rw [if_neg hm, ih]
        rw [mem_insertSess_labels]
        constructor
        · rintro ((hc | hc) | ⟨hne, hc⟩)
          · exact Or.inl hc
          · exact Or.inr ⟨by rw [hc]; exact hm, by simp [hc]⟩
          · exact Or.inr ⟨hne, by simp [hc]⟩
        · rintro (hc | ⟨hne, hc⟩)
          · exact Or.inl (Or.inl hc)
          · simp only [List.map_cons, List.mem_cons] at hc
            rcases hc with hc | hc
            · exact Or.inl (Or.inr hc)
            · exact Or.inr ⟨hne, hc⟩

theorem accStats_go_nodup :
    ∀ (ss : List Session) (st : List StakeStat),
      (st.map (fun d => d.limit)).Nodup →
      ((ss.foldl (fun st s => if s.limit = "mixed" then st else insertSess st s)
          st).map (fun d => d.limit)).Nodup := by
  intro ss
  induction ss with
  | nil => intro st h; exact h
  | cons s rest ih =>
      intro st h
      simp only [List.foldl_cons]
      by_cases hm : s.limit = "mixed"
      · rw [if_pos hm]; exact ih st h
      · rw [if_neg hm]
        refine ih _ ?_
        rw [insertSess_labels]
        by_cases hmem : s.limit ∈ st.map (fun d => d.limit)
        · rw [if_pos hmem]; exact h
        · rw [if_neg hmem]
          rw [List.nodup_append]
          refine ⟨h, by simp, ?_⟩
          intro x hx hx2
          simp only [List.mem_singleton] at hx2
          subst hx2
          exact hmem hx

theorem accStats_go_filter :
    ∀ (ss : List Session) (st : List StakeStat),
      ss.foldl (fun st s => if s.limit = "mixed" then st else insertSess st s) st =
        (ss.filter (fun s => s.limit ≠ "mixed")).foldl
          (fun st s => if s.limit = "mixed" then st else insertSess st s) st := by
  intro ss
  induction ss with
  | nil => intro st; rfl
  | cons s rest ih =>
      intro st
      simp only [List.foldl_cons]
      by_cases hm : s.limit = "mixed"
      · rw [if_pos hm]
        rw [List.filter_cons_of_neg (by simp [hm])]
        exact ih st
      · rw [if_neg hm]
        rw [List.filter_cons_of_pos (by simp [hm])]
        simp only [List.foldl_cons, if_neg hm]
        exact ih _

theorem accStats_go_pos :
    ∀ (ss : List Session) (st : List StakeStat),
      (∀ d ∈ st, 0 < d.hands_count) → (∀ s ∈ ss, 0 < s.hands_count) →
      ∀ d ∈ ss.foldl (fun st s => if s.limit = "mixed" then st else insertSess st s) st,
        0 < d.hands_count := by
  have hins : ∀ (st : List StakeStat) (s : Session), (∀ d ∈ st, 0 < d.hands_count) →
      0 < s.hands_count → ∀ d ∈ insertSess st s, 0 < d.hands_count := by
    intro st
    induction st with
    | nil =>
        intro s hst hs d hd
        simp only [insertSess, List.mem_singleton] at hd
        subst hd
        simp only [bumpAcc, initAcc]
        omega
    | cons e es ih =>
        intro s hst hs d hd
        simp only [insertSess] at hd
        by_cases he : e.limit = s.limit
        · rw [if_pos he] at hd
          rcases List.mem_cons.mp hd with hd | hd
          · subst hd
            have := hst e (by simp)
            simp only [bumpAcc]
            omega
          · exact hst d (by simp [hd])
        · rw [if_neg he] at hd
          rcases List.mem_cons.mp hd with hd | hd
          · subst hd; exact hst d (by simp)
          · exact ih s (fun x hx => hst x (by simp [hx])) hs d hd
  intro ss
  induction ss with
  | nil => intro st hst _ d hd; exact hst d hd
  | cons s rest ih =>
      intro st hst hss d hd
      simp only [List.foldl_cons] at hd
      by_cases hm : s.limit = "mixed"
      · rw [if_pos hm] at hd
        exact ih st hst (fun x hx => hss x (by simp [hx])) d hd
      · rw [if_neg hm] at hd
        exact ih _ (hins st s hst (hss s (by simp))) (fun x hx => hss x (by simp [hx])) d hd

/-- C4: the stake aggregator produces exactly one row per distinct
non-mixed session stake label (the output labels are duplicate-free and are
exactly the non-mixed labels occurring among the sessions), and sessions
labelled mixed contribute nothing at all: removing them from the input
leaves the whole output unchanged. -/
theorem claim_C4 (sessions : List Session) :
    ((build_limits_stats sessions).map (fun d => d.limit)).Nodup ∧
    (∀ l, l ∈ (build_limits_stats sessions).map (fun d => d.limit) ↔
      l ≠ "mixed" ∧ l ∈ sessions.map (fun s => s.limit)) ∧
    build_limits_stats sessions =
      build_limits_stats (sessions.filter (fun s => s.limit ≠ "mixed")) := by
  have hmaps : ∀ st : List StakeStat,
      (st.map finishAcc).map (fun d => d.limit) = st.map (fun d => d.limit) := by
    intro st
    rw [List.map_map]
    rfl
  refine ⟨?_, ?_, ?_⟩
  · rw [build_limits_stats, hmaps]
    exact accStats_go_nodup sessions [] (by simp)
  · intro l
    rw [build_limits_stats, hmaps]
    rw [accStats, accStats_go_mem]
    simp
  · rw [build_limits_stats, build_limits_stats, accStats, accStats,
      accStats_go_filter sessions []]

/-- C5: each stake row's bigBlindsPer100 is the accumulated big-blind total
divided by the accumulated hands count, times 100, rounded to two decimals,
whenever that total is nonzero; it is absent when the total is exactly zero
(which is also the value when no session contributed big-blind data). The
hypothesis, satisfied by every output of the session builder, is that
sessions count at least one hand. -/
theorem claim_C5 (sessions : List Session)
    (hpos : ∀ s ∈ sessions, 0 < s.hands_count) :
    ∀ stat ∈ build_limits_stats sessions,
      (stat.total_result_bb ≠ 0 →
        stat.bb_per_100 =
          some (round2 (stat.total_result_bb / (stat.hands_count : Rat) * 100))) ∧
      (stat.total_result_bb = 0 → stat.bb_per_100 = none) := by
  intro stat hstat
  rw [build_limits_stats] at hstat
  obtain ⟨d, hd, hfd⟩ := List.mem_map.mp hstat
  have hdp : 0 < d.hands_count := accStats_go_pos sessions [] (by simp) hpos d hd
  subst hfd
  constructor
  · intro hne
    have hne2 : d.total_result_bb ≠ 0 := hne
    show (if 0 < d.hands_count then
        (if d.total_result_bb ≠ 0 then
          some (d.total_result_bb / (d.hands_count : Rat) * 100) else none)
      else none).map round2 = _
    rw [if_pos hdp, if_pos hne2]
    rfl
  · intro hz
    have hz2 : d.total_result_bb = 0 := hz
    show (if 0 < d.hands_count then
        (if d.total_result_bb ≠ 0 then
          some (d.total_result_bb / (d.hands_count : Rat) * 100) else none)
      else none).map round2 = none
    rw [if_pos hdp, if_neg (by simp [hz2])]
    rfl

/-- C5 witness: one session of one hand at NL25 with big-blind total 4
yields a single row whose bb/100 is the rounded (total/hands)*100. -/
theorem claim_C5_witness :
    ((finishAcc (bumpAcc (initAcc "NL25")
        ⟨1, 0, 0, 0, 1, "NL25", 0, some 4, some 400, []⟩)).total_result_bb ≠ 0 →
      (finishAcc (bumpAcc (initAcc "NL25")
        ⟨1, 0, 0, 0, 1, "NL25", 0, some 4, some 400, []⟩)).bb_per_100 =
        some (round2 ((finishAcc (bumpAcc (initAcc "NL25")
          ⟨1, 0, 0, 0, 1, "NL25", 0, some 4, some 400, []⟩)).total_result_bb /
          ((finishAcc (bumpAcc (initAcc "NL25")
            ⟨1, 0, 0, 0, 1, "NL25", 0, some 4, some 400, []⟩)).hands_count : Rat) * 100))) ∧
    ((finishAcc (bumpAcc (initAcc "NL25")
        ⟨1, 0, 0, 0, 1, "NL25", 0, some 4, some 400, []⟩)).total_result_bb = 0 →
      (finishAcc (bumpAcc (initAcc "NL25")
        ⟨1, 0, 0, 0, 1, "NL25", 0, some 4, some 400, []⟩)).bb_per_100 = none) :=
  claim_C5 [⟨1, 0, 0, 0, 1, "NL25", 0, some 4, some 400, []⟩]
    (by intro s hs; simp only [List.mem_singleton] at hs; subst hs; norm_num)
    (finishAcc (bumpAcc (initAcc "NL25") ⟨1, 0, 0, 0, 1, "NL25", 0, some 4, some 400, []⟩))
    (by
      rw [show build_limits_stats [⟨1, 0, 0, 0, 1, "NL25", 0, some 4, some 400, []⟩] =
        [finishAcc (bumpAcc (initAcc "NL25")
          ⟨1, 0, 0, 0, 1, "NL25", 0, some 4, some 400, []⟩)] from rfl]
      exact List.mem_singleton.mpr rfl)

theorem foldl_min_spec :
    ∀ (l : List Int) (a : Int),
      (l.foldl min a = a ∨ l.foldl min a ∈ l) ∧ l.foldl min a ≤ a ∧
        ∀ u ∈ l, l.foldl min a ≤ u := by
  intro l
  induction l with
  | nil => intro a; exact ⟨Or.inl rfl, le_refl a, by simp⟩
  | cons b rest ih =>
      intro a
      simp only [List.foldl_cons]
      obtain ⟨hmem, hle, hlb⟩ := ih (min a b)
      refine ⟨?_, ?_, ?_⟩
      · rcases hmem with hm | hm
        · rcases min_choice a b with hc | hc
          · exact Or.inl (by rw [hm, hc])
          · refine Or.inr ?_
            rw [hm, hc]
            exact List.mem_cons_self b rest
        · exact Or.inr (by simp [hm])
      · exact le_trans hle (min_le_left a b)
      · intro u hu
        rcases List.mem_cons.mp hu with hu | hu
        · subst hu; exact le_trans hle (min_le_right a u)
        · exact hlb u hu

theorem foldl_max_spec :
    ∀ (l : List Int) (a : Int),
      (l.foldl max a = a ∨ l.foldl max a ∈ l) ∧ a ≤ l.foldl max a ∧
        ∀ u ∈ l, u ≤ l.foldl max a := by
  intro l
  induction l with
  | nil => intro a; exact ⟨Or.inl rfl, le_refl a, by simp⟩
  | cons b rest ih =>
      intro a
      simp only [List.foldl_cons]
      obtain ⟨hmem, hle, hlb⟩ := ih (max a b)
      refine ⟨?_, ?_, ?_⟩
      · rcases hmem with hm | hm
        · rcases max_choice a b with hc | hc
          · exact Or.inl (by rw [hm, hc])
          · refine Or.inr ?_
            rw [hm, hc]
            exact List.mem_cons_self b rest
        · exact Or.inr (by simp [hm])
      · exact le_trans (le_max_left a b) hle
      · intro u hu
        rcases List.mem_cons.mp hu with hu | hu
        · subst hu; exact le_trans (le_max_right a u) hle
        · exact hlb u hu

theorem pyMin_spec {l : List Int} {t : Int} (h : pyMin l = some t) :
    t ∈ l ∧ ∀ u ∈ l, t ≤ u := by
  cases l with
  | nil => cases h
  | cons a rest =>
      simp only [pyMin, Option.some.injEq] at h
      obtain ⟨hmem, hle, hlb⟩ := foldl_min_spec rest a
      subst h
      constructor
      · rcases hmem with hm | hm
        · simp [hm]
        · simp [hm]
      · intro u hu
        rcases List.mem_cons.mp hu with hu | hu
        · subst hu; exact hle
        · exact hlb u hu

theorem pyMax_spec {l : List Int} {t : Int} (h : pyMax l = some t) :
    t ∈ l ∧ ∀ u ∈ l, u ≤ t := by
  cases l with
  | nil => cases h
  | cons a rest =>
      simp only [pyMax, Option.some.injEq] at h
      obtain ⟨hmem, hle, hlb⟩ := foldl_max_spec rest a
      subst h
      constructor
      · rcases hmem with hm | hm
        · simp [hm]
        · simp [hm]
      · intro u hu
        rcases List.mem_cons.mp hu with hu | hu
        · subst hu; exact hle
        · exact hlb u hu

theorem pyMin_iff {l : List Int} {t : Int} :
    pyMin l = some t ↔ t ∈ l ∧ ∀ u ∈ l, t ≤ u := by
  constructor
  · exact pyMin_spec
  · rintro ⟨hmem, hlb⟩
    cases hl : pyMin l with
    | none =>
        cases l with
        | nil => cases hmem
        | cons a rest => cases hl
    | some t2 =>
        obtain ⟨hmem2, hlb2⟩ := pyMin_spec hl
        rw [le_antisymm (hlb2 t hmem) (hlb t2 hmem2)]

theorem pyMax_iff {l : List Int} {t : Int} :
    pyMax l = some t ↔ t ∈ l ∧ ∀ u ∈ l, u ≤ t := by
  constructor
  · exact pyMax_spec
  · rintro ⟨hmem, hlb⟩
    cases hl : pyMax l with
    | none =>
        cases l with
        | nil => cases hmem
        | cons a rest => cases hl
    | some t2 =>
        obtain ⟨hmem2, hlb2⟩ := pyMax_spec hl
        rw [le_antisymm (hlb t2 hmem2) (hlb2 t hmem)]

theorem build_summary_first {hands : List Hand} (S : List Session) (h : hands ≠ []) :
    (build_summary hands S).first_hand_time =
      pyMin (hands.filterMap (fun h => h.datetime)) := by
  simp only [build_summary, if_neg h]

theorem build_summary_last {hands : List Hand} (S : List Session) (h : hands ≠ []) :
    (build_summary hands S).last_hand_time =
      pyMax (hands.filterMap (fun h => h.datetime)) := by
  simp only [build_summary, if_neg h]

theorem build_summary_total_hands {hands : List Hand} (S : List Session) (h : hands ≠ []) :
    (build_summary hands S).total_hands = hands.length := by
  simp only [build_summary, if_neg h]

theorem build_summary_total_sessions {hands : List Hand} (S : List Session) (h : hands ≠ []) :
    (build_summary hands S).total_sessions = S.length := by
  simp only [build_summary, if_neg h]

/-- C7: for a non-empty hand list in which no hand has a recognized time,
the summary still counts all hands but reports zero sessions and absent
first/last times; for the empty hand list every field is zero or absent;
in general the first/last hand times are the minimum/maximum over the hands
with a defined time. -/
theorem claim_C7 (hands : List Hand) (G : Nat) :
    ((hands ≠ [] ∧ ∀ h ∈ hands, h.datetime = none) →
      (build_summary hands (build_sessions hands G)).total_hands = hands.length ∧
      (build_summary hands (build_sessions hands G)).total_sessions = 0 ∧
      (build_summary hands (build_sessions hands G)).first_hand_time = none ∧
      (build_summary hands (build_sessions hands G)).last_hand_time = none) ∧
    (hands = [] →
      build_summary hands (build_sessions hands G) = ⟨0, 0, 0, none, none, none, none⟩) ∧
    (hands ≠ [] →
      (∀ t, (build_summary hands (build_sessions hands G)).first_hand_time = some t ↔
        t ∈ hands.filterMap (fun h => h.datetime) ∧
          ∀ u ∈ hands.filterMap (fun h => h.datetime), t ≤ u) ∧
      (∀ t, (build_summary hands (build_sessions hands G)).last_hand_time = some t ↔
        t ∈ hands.filterMap (fun h => h.datetime) ∧
          ∀ u ∈ hands.filterMap (fun h => h.datetime), u ≤ t)) := by
  refine ⟨?_, ?_, ?_⟩
  · rintro ⟨hne, hall⟩
    have hfilter : hands.filter (fun h => h.datetime.isSome) = [] :=
      List.filter_eq_nil_iff.mpr (fun h hh => by simp [hall h hh])
    have hsess : build_sessions hands G = [] := by
      rw [build_sessions_def, hfilter]
      rw [show sortHands [] = [] from by simp [sortHands]]
      rfl
    have htimes : hands.filterMap (fun h => h.datetime) = [] :=
      List.filterMap_eq_nil_iff.mpr (fun h hh => hall h hh)
    refine ⟨build_summary_total_hands _ hne,
      by rw [build_summary_total_sessions _ hne, hsess]; rfl, ?_, ?_⟩
    · rw [build_summary_first _ hne, htimes]
      rfl
    · rw [build_summary_last _ hne, htimes]
      rfl
  · intro he
    subst he
    rfl
  · intro hne
    constructor
    · intro t
      rw [build_summary_first _ hne]
      exact pyMin_iff
    · intro t
      rw [build_summary_last _ hne]
      exact pyMax_iff
